import Mathlib

/-!
Verification development for the RESP wire-protocol decoder in `src/parser.rs`
(redis-rs).  Bytes are modelled as `Nat`, byte strings as `List Nat`, and the
incremental combine-based parser as a fuel-indexed step function with explicit
suspension (`.more`), framing errors (`.err`), and panic modelling (`.broken`,
for the source's `unreachable!()` / `.unwrap()` sites).  The pieces of the
repository that are not under `src/` (the `Value` / error types of `types.rs`)
and the external `combine` combinators are modelled from the specification, as
noted in the individual doc comments.
-/

set_option maxRecDepth 10000

/-- The closed set of response shapes, from `crate::types::Value` as used by
`parser.rs`: `Nil`, `Int`, `Data`, `Status`, `Okay`, `Bulk`. -/
inductive Value where
  | Nil
  | Int (i : Int)
  | Data (d : List Nat)
  | Status (s : List Nat)
  | Okay
  | Bulk (items : List Value)

/-- Alias used inside the `ValueParser` namespace, where the bare name `Value`
would resolve to the `ValueParser.Value` constructor. -/
abbrev RespValue := Value

/-- Error kinds from the fixed classification table in `error()` (parser.rs
lines 227-237), plus `IoError` for errors wrapped from `std::io` by the
drivers. -/
inductive ErrorKind where
  | ResponseError
  | ExecAbortError
  | BusyLoadingError
  | NoScriptError
  | Moved
  | Ask
  | TryAgain
  | ClusterDown
  | CrossSlot
  | MasterDown
  | ReadOnly
  | ExtensionError
  | IoError
deriving DecidableEq

/-- Framing / protocol errors raised by the grammar itself (combine stream
errors in the source): invalid UTF-8 in a line, the static message
"Expected integer, got garbage", an unexpected leading type-marker byte, a
missing CRLF after a bulk payload, and unexpected end of input at
end-of-source. -/
inductive PErr where
  | utf8
  | garbage
  | unexpectedByte (b : Nat)
  | expectedCrlf
  | endOfInput
deriving DecidableEq

/-- Fixed description used for classified server errors, parser.rs line 224. -/
def descServer : String := "An error was signalled by the server"

/-- Typed errors.  `server` models `RedisError::from((kind, desc))` /
`from((kind, desc, detail))`; `extensionError` models the result of
`make_extension_error`; `parseError` models
`RedisError::from((ErrorKind::ResponseError, "parse error", msg))` with the
formatted message abstracted to the underlying framing error; `unexpectedEof`
models `RedisError::from(io::Error::from(io::ErrorKind::UnexpectedEof))`. -/
inductive RedisError where
  | server (kind : ErrorKind) (desc : String) (detail : Option (List Nat))
  | extensionError (tag : List Nat) (detail : Option (List Nat))
  | parseError (e : PErr)
  | unexpectedEof
deriving DecidableEq

/-- The observable kind of a `RedisError`. -/
def RedisError.kind : RedisError → ErrorKind
  | .server k _ _ => k
  | .extensionError _ _ => .ExtensionError
  | .parseError _ => .ResponseError
  | .unexpectedEof => .IoError

/-- Output of the `value()` parser: `RedisResult<()>`, i.e. either success or
a server-signalled error carried as ordinary data. -/
inductive RRes where
  | ok
  | er (e : RedisError)
deriving DecidableEq

/-- The builder from parser.rs lines 68-77: either a stack of in-progress
array frames (innermost last) or a completed value. -/
inductive ValueParser where
  | Bulk (frames : List (List Value))
  | Value (v : Value)

/-- `ValueParser::take` (parser.rs lines 80-86): replaces the builder with its
default and yields the finished value; hitting the `Bulk` arm is
`unreachable!()`, modelled as `none`. -/
def ValueParser.take : ValueParser → Option (RespValue × ValueParser)
  | .Value v => some (v, .Value .Nil)
  | .Bulk _ => none

/-- Push a value onto the last (innermost) frame; `none` models the
`.unwrap()` panic on an empty frame stack. -/
def pushLast : List (List Value) → Value → Option (List (List Value))
  | [], _ => none
  | [f], v => some [f ++ [v]]
  | f :: g :: fs, v =>
    match pushLast (g :: fs) v with
    | some fs1 => some (f :: fs1)
    | none => none

/-- `ValueParser::value` (parser.rs lines 88-95). -/
def ValueParser.value : ValueParser → RespValue → Option ValueParser
  | .Value _, v => some (.Value v)
  | .Bulk fs, v =>
    match pushLast fs v with
    | some fs1 => some (.Bulk fs1)
    | none => none

/-- `RedisParser::nil` for `ValueParser` (parser.rs lines 98-100). -/
def ValueParser.nil (st : ValueParser) : Option ValueParser :=
  st.value .Nil

/-- `RedisParser::data` (parser.rs lines 101-103). -/
def ValueParser.data (st : ValueParser) (d : List Nat) : Option ValueParser :=
  st.value (.Data d)

/-- `RedisParser::status` (parser.rs lines 104-110): the literal text "OK"
(code points 79, 75) becomes `Okay`. -/
def ValueParser.status (st : ValueParser) (msg : List Nat) : Option ValueParser :=
  st.value (if msg = [79, 75] then .Okay else .Status msg)

/-- `RedisParser::int` (parser.rs lines 139-141). -/
def ValueParser.int (st : ValueParser) (i : Int) : Option ValueParser :=
  st.value (.Int i)

/-- `RedisParser::bulk_start` (parser.rs lines 111-123): push a fresh frame
(the declared size is only a capacity hint in the source). -/
def ValueParser.bulk_start : ValueParser → Nat → ValueParser
  | .Value _, _ => .Bulk [[]]
  | .Bulk fs, _ => .Bulk (fs ++ [[]])

/-- Pop the last (innermost) frame; `none` models the `.unwrap()` panic on an
empty stack. -/
def popLast : List (List Value) → Option (List (List Value) × List Value)
  | [] => none
  | [f] => some ([], f)
  | f :: g :: fs =>
    match popLast (g :: fs) with
    | some pr => some (f :: pr.1, pr.2)
    | none => none

/-- `RedisParser::bulk_end` (parser.rs lines 124-138): pop the innermost
frame, wrap it as a `Bulk` value, and append it to the new innermost frame, or
make it the final value when the stack empties. -/
def ValueParser.bulk_end : ValueParser → Option ValueParser
  | .Value _ => none
  | .Bulk fs =>
    match popLast fs with
    | none => none
    | some (rem, done) =>
      match rem with
      | [] => some (.Value (.Bulk done))
      | _ :: _ =>
        match pushLast rem (.Bulk done) with
        | some rem1 => some (.Bulk rem1)
        | none => none

/-- Scan for the first CRLF (13, 10); `none` when no terminator is present in
the available bytes (the source's `take_until_bytes` suspends there). -/
def splitCRLF : List Nat → Option (List Nat × List Nat)
  | [] => none
  | b :: rest =>
    if b = 13 ∧ rest.head? = some 10 then some ([], rest.tail)
    else
      match splitCRLF rest with
      | some pr => some (b :: pr.1, pr.2)
      | none => none

/-- UTF-8 decoding of a byte list into code points, following
`str::from_utf8`: rejects overlong forms, surrogates and values above
U+10FFFF. -/
def utf8Decode : List Nat → Option (List Nat)
  | [] => some []
  | c :: rest =>
    if c < 128 then
      match utf8Decode rest with
      | some t => some (c :: t)
      | none => none
    else if c < 194 then none
    else if c ≤ 223 then
      match rest with
      | c1 :: rest1 =>
        if 128 ≤ c1 ∧ c1 ≤ 191 then
          match utf8Decode rest1 with
          | some t => some (((c - 192) * 64 + (c1 - 128)) :: t)
          | none => none
        else none
      | [] => none
    else if c ≤ 239 then
      match rest with
      | c1 :: c2 :: rest2 =>
        if (if c = 224 then 160 else 128) ≤ c1 ∧ c1 ≤ (if c = 237 then 159 else 191) ∧
            128 ≤ c2 ∧ c2 ≤ 191 then
          match utf8Decode rest2 with
          | some t => some (((c - 224) * 4096 + (c1 - 128) * 64 + (c2 - 128)) :: t)
          | none => none
        else none
      | _ => none
    else if c ≤ 244 then
      match rest with
      | c1 :: c2 :: c3 :: rest3 =>
        if (if c = 240 then 144 else 128) ≤ c1 ∧ c1 ≤ (if c = 244 then 143 else 191) ∧
            128 ≤ c2 ∧ c2 ≤ 191 ∧ 128 ≤ c3 ∧ c3 ≤ 191 then
          match utf8Decode rest3 with
          | some t => some (((c - 240) * 262144 + (c1 - 128) * 4096 + (c2 - 128) * 64 + (c3 - 128)) :: t)
          | none => none
        else none
      | _ => none
    else none

/-- Unicode `White_Space` code points, as used by Rust's `str::trim` through
`char::is_whitespace`. -/
def isWsp (c : Nat) : Bool :=
  c = 9 || c = 10 || c = 11 || c = 12 || c = 13 || c = 32 || c = 133 || c = 160 ||
  c = 5760 || (8192 ≤ c && c ≤ 8202) || c = 8232 || c = 8233 || c = 8239 ||
  c = 8287 || c = 12288

/-- `str::trim`: drop whitespace from both ends. -/
def trimWs (s : List Nat) : List Nat :=
  ((s.dropWhile isWsp).reverse.dropWhile isWsp).reverse

/-- Accumulate a decimal value over ASCII digits; `none` on a non-digit. -/
def digitsVal : List Nat → Nat → Option Nat
  | [], acc => some acc
  | d :: ds, acc =>
    if 48 ≤ d ∧ d ≤ 57 then digitsVal ds (acc * 10 + (d - 48)) else none

/-- `i64::from_str` as invoked by `line.trim().parse::<i64>()`: optional sign,
one or more ASCII digits, rejecting values outside the `i64` range. -/
def parseI64 : List Nat → Option Int
  | [] => none
  | 43 :: ds =>
    match ds, digitsVal ds 0 with
    | _ :: _, some n => if n ≤ 9223372036854775807 then some (Int.ofNat n) else none
    | _, _ => none
  | 45 :: ds =>
    match ds, digitsVal ds 0 with
    | _ :: _, some n => if n ≤ 9223372036854775808 then some (-(Int.ofNat n : Int)) else none
    | _, _ => none
  | d :: ds =>
    match digitsVal (d :: ds) 0 with
    | some n => if n ≤ 9223372036854775807 then some (Int.ofNat n) else none
    | none => none

/-- `line.splitn(2, ' ')` on code points: the part before the first space and,
when a space exists, the remainder. -/
def splitAtFirstSpace : List Nat → List Nat × Option (List Nat)
  | [] => ([], none)
  | b :: rest =>
    if b = 32 then ([], some rest)
    else
      let pr := splitAtFirstSpace rest
      (b :: pr.1, pr.2)

/-- The fixed, case-sensitive table of known error codes (parser.rs lines
227-237): ERR, EXECABORT, LOADING, NOSCRIPT, MOVED, ASK, TRYAGAIN,
CLUSTERDOWN, CROSSSLOT, MASTERDOWN, READONLY, as code-point lists. -/
def errorCodeKind (code : List Nat) : Option ErrorKind :=
  if code = [69, 82, 82] then some .ResponseError
  else if code = [69, 88, 69, 67, 65, 66, 79, 82, 84] then some .ExecAbortError
  else if code = [76, 79, 65, 68, 73, 78, 71] then some .BusyLoadingError
  else if code = [78, 79, 83, 67, 82, 73, 80, 84] then some .NoScriptError
  else if code = [77, 79, 86, 69, 68] then some .Moved
  else if code = [65, 83, 75] then some .Ask
  else if code = [84, 82, 89, 65, 71, 65, 73, 78] then some .TryAgain
  else if code = [67, 76, 85, 83, 84, 69, 82, 68, 79, 87, 78] then some .ClusterDown
  else if code = [67, 82, 79, 83, 83, 83, 76, 79, 84] then some .CrossSlot
  else if code = [77, 65, 83, 84, 69, 82, 68, 79, 87, 78] then some .MasterDown
  else if code = [82, 69, 65, 68, 79, 78, 76, 89] then some .ReadOnly
  else none

/-- Modelled from the spec: `make_extension_error` lives in the repository's
`types.rs`, which is not under `src/`.  Per the spec (§4.2), the unrecognized
first token becomes a free-form classification tag and the remainder, if
present, becomes the detail. -/
def make_extension_error (code : List Nat) (detail : Option (List Nat)) : RedisError :=
  .extensionError code detail

/-- The error classifier, `error()` in parser.rs lines 221-245: split on the
first space, match the first token case-sensitively against the fixed table,
fall back to an extension error. -/
def classifyError (line : List Nat) : RedisError :=
  let pr := splitAtFirstSpace line
  match errorCodeKind pr.1 with
  | some kind => .server kind descServer pr.2
  | none => make_extension_error pr.1 pr.2

/-- Result of a sub-parser that touches no builder state (`line()` and
`int()` in the source). -/
inductive LOut (α : Type) where
  | ok (a : α) (rest : List Nat)
  | more
  | err (e : PErr)

/-- `line()` (parser.rs lines 170-174): scan for CRLF, suspending when absent;
the content must decode as UTF-8 (yielding code points), else a protocol
error. -/
def lineP (input : List Nat) : LOut (List Nat) :=
  match splitCRLF input with
  | none => .more
  | some (content, rest) =>
    match utf8Decode content with
    | some text => .ok text rest
    | none => .err .utf8

/-- `int()` (parser.rs lines 180-185): read a line, trim whitespace, parse as
a signed 64-bit decimal; failure is the static protocol error
"Expected integer, got garbage". -/
def intP (input : List Nat) : LOut Int :=
  match lineP input with
  | .ok text rest =>
    match parseI64 (trimWs text) with
    | some i => .ok i rest
    | none => .err .garbage
  | .more => .more
  | .err e => .err e

/-- Take exactly `n` bytes (combine's `take(n)`); `none` when fewer are
available, which suspends the parse. -/
def takeN : Nat → List Nat → Option (List Nat × List Nat)
  | 0, l => some ([], l)
  | _ + 1, [] => none
  | n + 1, b :: l =>
    match takeN n l with
    | some pr => some (b :: pr.1, pr.2)
    | none => none

/-- Outcome of one `value()` parse: success with the parser's
`RedisResult<()>` output, the updated builder and the unconsumed suffix;
suspension; fuel exhaustion (an artifact of the fuel index, never reached at
adequate fuel); a framing error; or a modelled panic. -/
inductive POut where
  | ok (r : RRes) (st : ValueParser) (rest : List Nat)
  | more
  | fuelOut
  | err (e : PErr)
  | broken

/-- Outcome of parsing a fixed number of array elements. -/
inductive EOut where
  | ok (rs : List RRes) (st : ValueParser) (rest : List Nat)
  | more
  | fuelOut
  | err (e : PErr)
  | broken

/-- `ResultExtend::extend` (parser.rs lines 35-57) applied to the sequence of
element results: `Ok` items are accumulated and collection stops at the first
`Err`, which becomes the overall result. -/
def resultExtendList : List RRes → RRes
  | [] => .ok
  | .ok :: rest => resultExtendList rest
  | .er e :: _ => .er e

/-- Parse exactly `n` array elements with the element parser `p`, in order.
Modelled from the spec: the element loop is combine's
`count_min_max(length, length, value())`, which is external to this
repository; per §4.3 the dispatcher must "recursively apply this same
dispatch exactly `count` times for the elements".  The collected results are
combined by `resultExtendList` at the use site, faithful to `ResultExtend`. -/
def parseElemsWith (p : ValueParser → List Nat → POut) : Nat → ValueParser → List Nat → EOut
  | 0, st, input => .ok [] st input
  | n + 1, st, input =>
    match p st input with
    | .ok r st1 rest =>
      match parseElemsWith p n st1 rest with
      | .ok rs st2 rest2 => .ok (r :: rs) st2 rest2
      | .more => .more
      | .fuelOut => .fuelOut
      | .err e => .err e
      | .broken => .broken
    | .more => .more
    | .fuelOut => .fuelOut
    | .err e => .err e
    | .broken => .broken

/-- One step of the `value()` grammar (parser.rs lines 157-261), parameterized
by the parser used for nested array elements: consume the one-byte type
marker (suspending on empty input, like `any()`), then dispatch:
`+` status line, `:` integer, `$` bulk string, `*` array, `-` error line, any
other byte an unrecoverable protocol error. -/
def parseValueF (p : ValueParser → List Nat → POut) (st : ValueParser) (input : List Nat) : POut :=
  match input with
  | [] => .more
  | b :: rest =>
    if b = 43 then
      match lineP rest with
      | .ok text r =>
        match st.status text with
        | some st1 => .ok .ok st1 r
        | none => .broken
      | .more => .more
      | .err e => .err e
    else if b = 58 then
      match intP rest with
      | .ok i r =>
        match st.int i with
        | some st1 => .ok .ok st1 r
        | none => .broken
      | .more => .more
      | .err e => .err e
    else if b = 36 then
      match intP rest with
      | .ok size r =>
        if size < 0 then
          match st.nil with
          | some st1 => .ok .ok st1 r
          | none => .broken
        else
          match takeN size.toNat r with
          | none => .more
          | some (payload, r1) =>
            match st.data payload with
            | some st1 =>
              match r1 with
              | [] => .more
              | [c1] => if c1 = 13 then .more else .err .expectedCrlf
              | c1 :: c2 :: r2 =>
                if c1 = 13 ∧ c2 = 10 then .ok .ok st1 r2 else .err .expectedCrlf
            | none => .broken
      | .more => .more
      | .err e => .err e
    else if b = 42 then
      match intP rest with
      | .ok count r =>
        if count < 0 then
          match st.nil with
          | some st1 => .ok .ok st1 r
          | none => .broken
        else
          match parseElemsWith p count.toNat (st.bulk_start count.toNat) r with
          | .ok rs st1 r1 =>
            match st1.bulk_end with
            | some st2 => .ok (resultExtendList rs) st2 r1
            | none => .broken
          | .more => .more
          | .fuelOut => .fuelOut
          | .err e => .err e
          | .broken => .broken
      | .more => .more
      | .err e => .err e
    else if b = 45 then
      match lineP rest with
      | .ok text r => .ok (.er (classifyError text)) st r
      | .more => .more
      | .err e => .err e
    else .err (.unexpectedByte b)

/-- The fuel-indexed `value()` parser: fuel bounds the nesting depth of the
recursion; `fuelOut` is never reached once the fuel exceeds the input length
(see `parseValue_ne_fuelOut`). -/
def parseValue : Nat → ValueParser → List Nat → POut
  | 0 => fun _ _ => .fuelOut
  | fuel + 1 => parseValueF (parseValue fuel)

/-- One call of the resumable decoder on a pending buffer, extracting a
completed value and the unconsumed suffix; `none` when the buffer suspends,
errors, or yields a server error. -/
def decodeOne (input : List Nat) : Option (Value × List Nat) :=
  match parseValue (input.length + 1) (.Value .Nil) input with
  | .ok .ok st rest =>
    match st.take with
    | some pr => some (pr.1, rest)
    | none => none
  | _ => none

/-- Repeatedly call the decoder on one buffer, collecting the values produced
in order and the leftover bytes (the model of "feeding the entire stream at
once" and reading values until `NeedMoreInput`). -/
def decodeAll : Nat → List Nat → List Value × List Nat
  | 0, input => ([], input)
  | fuel + 1, input =>
    match decodeOne input with
    | some pr =>
      let rec1 := decodeAll fuel pr.2
      (pr.1 :: rec1.1, rec1.2)
    | none => ([], input)

/-- `decodeAll` at its adequate fuel. -/
def decodeAllA (input : List Nat) : List Value × List Nat :=
  decodeAll (input.length + 1) input

/-- Feed chunks one at a time: append each chunk to the pending bytes, drain
all completed values, and keep the remainder pending (the model of the
streaming driving style over fragmented input). -/
def feedChunks : List (List Nat) → List Nat → List Value × List Nat
  | [], pending => ([], pending)
  | c :: cs, pending =>
    let step := decodeAllA (pending ++ c)
    let rest := feedChunks cs step.2
    (step.1 ++ rest.1, rest.2)

/-- Observable outcome of `ValueCodec::decode_stream` (parser.rs lines
278-311): `Ok(Some(value))` with the number of buffer bytes advanced,
`Ok(None)`, `Err(error)` with the bytes advanced before the early return, or
a modelled panic. -/
inductive DecodeOut where
  | got (v : Value) (consumed : Nat)
  | noValue (consumed : Nat)
  | fail (e : RedisError) (consumed : Nat)
  | panicked

/-- `ValueCodec::decode_stream` (parser.rs lines 278-311).  Modelled from the
spec where the behavior is decided by combine's `decode_tokio` (external to
this repository): per §4.5, on a completed parse the consumed prefix is
advanced (also when the completed result is a server error, since
`bytes.advance` precedes the `result?`); on suspension no bytes are consumed;
at end-of-source an empty buffer is clean end-of-stream (`Ok(None)`, pinned by
the source's own `decode_eof_returns_none_at_eof` test) while a partially
received value becomes a parse error built by lines 289-299, which wrap every
parse failure as `(ErrorKind::ResponseError, "parse error", msg)` without
advancing the buffer. -/
def decode_stream (bytes : List Nat) (eof : Bool) : DecodeOut :=
  match parseValue (bytes.length + 1) (.Value .Nil) bytes with
  | .ok r st rest =>
    let consumed := bytes.length - rest.length
    match r with
    | .ok =>
      match st.take with
      | some pr => .got pr.1 consumed
      | none => .panicked
    | .er e => .fail e consumed
  | .err e => .fail (.parseError e) 0
  | .more =>
    if eof then
      if bytes = [] then .noValue 0
      else .fail (.parseError .endOfInput) 0
    else .noValue 0
  | .fuelOut => .panicked
  | .broken => .panicked

/-- Observable outcome of the synchronous driver `Parser::parse_value`. -/
inductive SyncOut where
  | got (v : Value)
  | fail (e : RedisError)
  | panicked

/-- `Parser::parse_value` (parser.rs lines 406-435) on a byte source that
yields `source` and then end-of-file.  Modelled from the spec where the
behavior is decided by combine's `decode!` reader loop (external to this
repository): the loop keeps reading until a value completes or the source
ends; a parse still suspended at end-of-source surfaces as an
unexpected-end-of-input parse error, which lines 418-421 map to
`io::ErrorKind::UnexpectedEof`; other parse errors are wrapped as
`(ErrorKind::ResponseError, "parse error", msg)` by lines 421-427; a
completed `Err` result is returned by the `result?` at line 431. -/
def parse_value (source : List Nat) : SyncOut :=
  match parseValue (source.length + 1) (.Value .Nil) source with
  | .ok .ok st _ =>
    match st.take with
    | some pr => .got pr.1
    | none => .panicked
  | .ok (.er e) _ _ => .fail e
  | .err e => .fail (.parseError e)
  | .more => .fail .unexpectedEof
  | .fuelOut => .panicked
  | .broken => .panicked

/-- `c` is a complete encoding of the value `v`: parsing it from the default
builder succeeds with result `Ok(())`, finishes the builder at `v`, and
consumes exactly the whole of `c`. -/
def Encodes (c : List Nat) (v : Value) : Prop :=
  parseValue (c.length + 1) (.Value .Nil) c = .ok .ok (.Value v) []

/-- A byte stream that encodes the sequence of values `vs`, one complete
encoding after another. -/
inductive GoodStream : List Nat → List Value → Prop
  | nil : GoodStream [] []
  | cons {c : List Nat} {v : Value} {s : List Nat} {vs : List Value} :
      Encodes c v → GoodStream s vs → GoodStream (c ++ s) (v :: vs)

/-- No CRLF pair occurs inside the bytes (so a following CRLF is the first
terminator the line scan finds). -/
def crlfFree : List Nat → Bool
  | [] => true
  | b :: rest =>
    if b = 13 ∧ rest.head? = some 10 then false else crlfFree rest

/-- Builder well-formedness: an open frame stack is never empty. -/
def WF : ValueParser → Prop
  | .Value _ => True
  | .Bulk fs => fs ≠ []

/-- Number of open frames (0 for a completed/leaf builder state). -/
def shape : ValueParser → Nat
  | .Value _ => 0
  | .Bulk fs => fs.length

/-- Extension property: a successful parse is unaffected by bytes appended
after the consumed prefix. -/
def OkExt (p : ValueParser → List Nat → POut) : Prop :=
  ∀ st b t r st1 rest, p st b = .ok r st1 rest → p st (b ++ t) = .ok r st1 (rest ++ t)

/-- Extension property for framing errors. -/
def ErrExt (p : ValueParser → List Nat → POut) : Prop :=
  ∀ st b t e, p st b = .err e → p st (b ++ t) = .err e

/-- Extension property for modelled panics. -/
def BrokenExt (p : ValueParser → List Nat → POut) : Prop :=
  ∀ st b t, p st b = .broken → p st (b ++ t) = .broken

/-- `q` refines `p` on every outcome that is not fuel exhaustion. -/
def Agrees (p q : ValueParser → List Nat → POut) : Prop :=
  ∀ st i R, R ≠ POut.fuelOut → p st i = R → q st i = R

/-- A successful parse consumes at least one byte and leaves a suffix. -/
def Consumes (p : ValueParser → List Nat → POut) : Prop :=
  ∀ st i r st1 rest, p st i = .ok r st1 rest → ∃ c, i = c ++ rest ∧ c ≠ []

/-- Fuel exhaustion cannot be observed on inputs shorter than `n`. -/
def AdequateUpTo (p : ValueParser → List Nat → POut) (n : Nat) : Prop :=
  ∀ st i, i.length < n → p st i ≠ POut.fuelOut

/-- A successful parse keeps the builder well-formed and restores the number
of open frames. -/
def ShapePres (p : ValueParser → List Nat → POut) : Prop :=
  ∀ st i r st1 rest, WF st → p st i = .ok r st1 rest → WF st1 ∧ shape st1 = shape st

/-- A parse from a well-formed builder never reaches a panic site. -/
def NeverBroken (p : ValueParser → List Nat → POut) : Prop :=
  ∀ st i, WF st → p st i ≠ POut.broken

/-- Append trailing bytes to the unconsumed suffix of a settled outcome. -/
def POut.appendRest : POut → List Nat → POut
  | .ok r st rest, t => .ok r st (rest ++ t)
  | o, _ => o

/-- Append trailing bytes to the unconsumed suffix of a settled outcome. -/
def EOut.appendRest : EOut → List Nat → EOut
  | .ok rs st rest, t => .ok rs st (rest ++ t)
  | o, _ => o

/-- Settled (neither suspended nor out of fuel) outcomes are stable under
appending further input. -/
def StableExt (p : ValueParser → List Nat → POut) : Prop :=
  ∀ st b t, p st b ≠ POut.more → p st b ≠ POut.fuelOut →
    p st (b ++ t) = (p st b).appendRest t

/-- Byte encoding of a one-element array nest of the given depth: depth 0 is
the status reply `+OK\r\n`, depth `d+1` wraps the previous level in the
one-element array header `*1\r\n`. -/
def nest : Nat → List Nat
  | 0 => [43, 79, 75, 13, 10]
  | d + 1 => 42 :: 49 :: 13 :: 10 :: nest d

/-- The fully resolved value the nest of the given depth decodes to. -/
def nestVal : Nat → Value
  | 0 => .Okay
  | d + 1 => .Bulk [nestVal d]

/-- The wire bytes of one `+` status-line element with the given
(content, text) pair: marker, content, terminator. -/
def statusLineBytes (p : List Nat × List Nat) : List Nat :=
  43 :: p.1 ++ [13, 10]

/-- The value a `+` status-line element with the given (content, text) pair
builds: the literal text "OK" becomes `Okay` (parser.rs 104-110). -/
def statusVal (p : List Nat × List Nat) : Value :=
  if p.2 = [79, 75] then Value.Okay else Value.Status p.2

/-- Side conditions for a list of status-line elements: each content is
CRLF-free and decodes as UTF-8 to the paired text. -/
@[reducible] def GoodLines (gs : List (List Nat × List Nat)) : Prop :=
  ∀ p ∈ gs, crlfFree p.1 = true ∧ utf8Decode p.1 = some p.2
theorem splitCRLF_eq : ∀ (i : List Nat) {c r : List Nat},
    splitCRLF i = some (c, r) → i = c ++ 13 :: 10 :: r := by
  intro i
  induction i with
  | nil => intro c r h; simp [splitCRLF] at h
  | cons b rest ih =>
    intro c r h
    rw [splitCRLF] at h
    split at h
    next hc =>
      cases h
      obtain ⟨hb, hx⟩ := hc
      subst hb
      cases rest with
      | nil => simp at hx
      | cons x xs =>
        simp only [List.head?_cons, Option.some.injEq] at hx
        subst hx
        rfl
    next =>
      cases hsp : splitCRLF rest with
      | none => rw [hsp] at h; cases h
      | some pr =>
        rw [hsp] at h
        cases h
        simpa using congrArg (List.cons b) (ih hsp)

theorem splitCRLF_append : ∀ (i : List Nat) {c r : List Nat} (t : List Nat),
    splitCRLF i = some (c, r) → splitCRLF (i ++ t) = some (c, r ++ t) := by
  intro i
  induction i with
  | nil => intro c r t h; simp [splitCRLF] at h
  | cons b rest ih =>
    intro c r t h
    rw [splitCRLF] at h
    rw [List.cons_append, splitCRLF]
    split at h
    next hc =>
      cases h
      obtain ⟨hb, hx⟩ := hc
      cases rest with
      | nil => simp at hx
      | cons x xs =>
        simp only [List.head?_cons, Option.some.injEq] at hx
        subst hx
        rw [if_pos ⟨hb, by simp⟩]
        rfl
    next hc =>
      cases hsp : splitCRLF rest with
      | none => rw [hsp] at h; cases h
      | some pr =>
        rw [hsp] at h
        cases h
        have hx2 : ¬(b = 13 ∧ (rest ++ t).head? = some 10) := by
          rintro ⟨hb, hx⟩
          cases rest with
          | nil => simp [splitCRLF] at hsp
          | cons x xs =>
            simp only [List.cons_append, List.head?_cons, Option.some.injEq] at hx
            exact hc ⟨hb, by simp [hx]⟩
        rw [if_neg hx2, ih t hsp]

theorem splitCRLF_crlfFree : ∀ (c : List Nat) (r : List Nat),
    crlfFree c = true → splitCRLF (c ++ 13 :: 10 :: r) = some (c, r) := by
  intro c
  induction c with
  | nil => intro r _; rfl
  | cons b rest ih =>
    intro r h
    rw [crlfFree] at h
    rw [List.cons_append, splitCRLF]
    split at h
    next => cases h
    next hc =>
      have hx : ¬(b = 13 ∧ (rest ++ 13 :: 10 :: r).head? = some 10) := by
        rintro ⟨hb, hx⟩
        cases rest with
        | nil => simp at hx
        | cons x xs =>
          simp only [List.cons_append, List.head?_cons, Option.some.injEq] at hx
          exact hc ⟨hb, by simp [hx]⟩
      rw [if_neg hx, ih r h]

theorem splitCRLF_length {i c r : List Nat} (h : splitCRLF i = some (c, r)) :
    i.length = c.length + 2 + r.length := by
  have := splitCRLF_eq i h
  subst this
  simp
  omega

theorem takeN_exact : ∀ (pl r : List Nat), takeN pl.length (pl ++ r) = some (pl, r) := by
  intro pl
  induction pl with
  | nil => intro r; rfl
  | cons b rest ih => intro r; simp [takeN, ih r]

theorem takeN_eq : ∀ (n : Nat) (i : List Nat) {pl rest : List Nat},
    takeN n i = some (pl, rest) → i = pl ++ rest ∧ pl.length = n := by
  intro n
  induction n with
  | zero => intro i pl rest h; rw [takeN] at h; cases h; simp
  | succ m ih =>
    intro i pl rest h
    cases i with
    | nil => simp [takeN] at h
    | cons b bs =>
      rw [takeN] at h
      split at h
      next pr heq =>
        cases h
        obtain ⟨h1, h2⟩ := ih bs heq
        subst h1
        simp [h2]
      next => cases h

theorem takeN_append {n : Nat} {i pl rest : List Nat} (t : List Nat)
    (h : takeN n i = some (pl, rest)) : takeN n (i ++ t) = some (pl, rest ++ t) := by
  obtain ⟨h1, h2⟩ := takeN_eq n i h
  subst h1 h2
  rw [List.append_assoc]
  exact takeN_exact pl (rest ++ t)

theorem takeN_short : ∀ (n : Nat) (i : List Nat), i.length < n → takeN n i = none := by
  intro n
  induction n with
  | zero => intro i h; omega
  | succ m ih =>
    intro i h
    cases i with
    | nil => rfl
    | cons b bs =>
      rw [takeN]
      rw [ih bs (by simpa using Nat.lt_of_succ_lt_succ h)]

theorem lineP_append_ok {i text rest : List Nat} (t : List Nat)
    (h : lineP i = .ok text rest) : lineP (i ++ t) = .ok text (rest ++ t) := by
  rw [lineP] at h
  split at h
  next => cases h
  next content r heq =>
    split at h
    next txt heq2 => cases h; simp only [lineP, splitCRLF_append i t heq, heq2]
    next => cases h

theorem lineP_append_err {i : List Nat} {e : PErr} (t : List Nat)
    (h : lineP i = .err e) : lineP (i ++ t) = .err e := by
  rw [lineP] at h
  split at h
  next => cases h
  next content r heq =>
    split at h
    next txt heq2 => cases h
    next heq2 => cases h; simp only [lineP, splitCRLF_append i t heq, heq2]

theorem lineP_crlfFree {c : List Nat} {text : List Nat} (r : List Nat)
    (hf : crlfFree c = true) (hu : utf8Decode c = some text) :
    lineP (c ++ 13 :: 10 :: r) = .ok text r := by
  simp only [lineP, splitCRLF_crlfFree c r hf, hu]

theorem lineP_consume {i text rest : List Nat} (h : lineP i = .ok text rest) :
    ∃ c, i = c ++ 13 :: 10 :: rest := by
  rw [lineP] at h
  split at h
  next => cases h
  next content r heq =>
    split at h
    next txt heq2 => cases h; exact ⟨content, splitCRLF_eq i heq⟩
    next => cases h

theorem intP_append_ok {i rest : List Nat} {n : Int} (t : List Nat)
    (h : intP i = .ok n rest) : intP (i ++ t) = .ok n (rest ++ t) := by
  rw [intP] at h
  split at h
  next text r heq =>
    split at h
    next m heq2 => cases h; simp only [intP, lineP_append_ok t heq, heq2]
    next => cases h
  next => cases h
  next => cases h

theorem intP_append_err {i : List Nat} {e : PErr} (t : List Nat)
    (h : intP i = .err e) : intP (i ++ t) = .err e := by
  rw [intP] at h
  split at h
  next text r heq =>
    split at h
    next m heq2 => cases h
    next heq2 => cases h; simp only [intP, lineP_append_ok t heq, heq2]
  next => cases h
  next heq => cases h; simp only [intP, lineP_append_err t heq]

theorem intP_crlfFree {c : List Nat} {text : List Nat} {n : Int} (r : List Nat)
    (hf : crlfFree c = true) (hu : utf8Decode c = some text)
    (hp : parseI64 (trimWs text) = some n) :
    intP (c ++ 13 :: 10 :: r) = .ok n r := by
  simp only [intP, lineP_crlfFree r hf hu, hp]

theorem intP_crlfFree_garbage {c : List Nat} {text : List Nat} (r : List Nat)
    (hf : crlfFree c = true) (hu : utf8Decode c = some text)
    (hp : parseI64 (trimWs text) = none) :
    intP (c ++ 13 :: 10 :: r) = .err .garbage := by
  simp only [intP, lineP_crlfFree r hf hu, hp]

theorem intP_consume {i rest : List Nat} {n : Int} (h : intP i = .ok n rest) :
    ∃ c, i = c ++ 13 :: 10 :: rest := by
  rw [intP] at h
  split at h
  next text r heq =>
    split at h
    next m heq2 => cases h; exact lineP_consume heq
    next => cases h
  next => cases h
  next => cases h

theorem pushLast_concat : ∀ (fs : List (List Value)) (g : List Value) (v : Value),
    pushLast (fs ++ [g]) v = some (fs ++ [g ++ [v]]) := by
  intro fs
  induction fs with
  | nil => intro g v; rfl
  | cons f fs ih =>
    intro g v
    cases fs with
    | nil => simp [pushLast]
    | cons f2 fs2 =>
      have h2 := ih g v
      simp only [List.cons_append] at h2 ⊢
      rw [pushLast, h2]

theorem popLast_concat : ∀ (fs : List (List Value)) (g : List Value),
    popLast (fs ++ [g]) = some (fs, g) := by
  intro fs
  induction fs with
  | nil => intro g; rfl
  | cons f fs ih =>
    intro g
    cases fs with
    | nil => simp [popLast]
    | cons f2 fs2 =>
      have h2 := ih g
      simp only [List.cons_append] at h2 ⊢
      rw [popLast, h2]

theorem value_wf {st : ValueParser} (v : Value) (h : WF st) :
    ∃ st1, st.value v = some st1 ∧ WF st1 ∧ shape st1 = shape st := by
  cases st with
  | Value w => exact ⟨.Value v, rfl, trivial, rfl⟩
  | Bulk fs =>
    rcases fs.eq_nil_or_concat' with hnil | ⟨fs2, g, hcat⟩
    · exact absurd hnil h
    · subst hcat
      refine ⟨.Bulk (fs2 ++ [g ++ [v]]), ?_, by simp [WF], by simp [shape]⟩
      simp [ValueParser.value, pushLast_concat]

theorem bulk_start_wf (st : ValueParser) (n : Nat) :
    WF (st.bulk_start n) ∧ shape (st.bulk_start n) = shape st + 1 := by
  cases st with
  | Value w => exact ⟨by simp [ValueParser.bulk_start, WF], by simp [ValueParser.bulk_start, shape]⟩
  | Bulk fs => exact ⟨by simp [ValueParser.bulk_start, WF], by simp [ValueParser.bulk_start, shape]⟩

theorem bulk_end_wf {fs : List (List Value)} (hne : fs ≠ []) :
    ∃ st1, (ValueParser.Bulk fs).bulk_end = some st1 ∧ WF st1 ∧
      shape st1 + 1 = fs.length := by
  rcases fs.eq_nil_or_concat' with hnil | ⟨fs2, g, hcat⟩
  · exact absurd hnil hne
  · subst hcat
    rcases fs2.eq_nil_or_concat' with hnil2 | ⟨fs3, g2, hcat2⟩
    · subst hnil2
      refine ⟨.Value (.Bulk g), ?_, trivial, by simp [shape]⟩
      simp only [List.nil_append]
      have h2 := popLast_concat [] g
      simp only [List.nil_append] at h2
      simp only [ValueParser.bulk_end, h2]
    · subst hcat2
      refine ⟨.Bulk (fs3 ++ [g2 ++ [.Bulk g]]), ?_, by simp [WF], by simp [shape]⟩
      have hpop := popLast_concat (fs3 ++ [g2]) g
      have hpush := pushLast_concat fs3 g2 (.Bulk g)
      cases fs3 with
      | nil =>
        simp only [List.nil_append] at hpop hpush ⊢
        simp only [ValueParser.bulk_end, hpop, hpush]
      | cons f4 fs4 =>
        simp only [List.cons_append] at hpop hpush ⊢
        simp only [ValueParser.bulk_end, hpop, hpush]

theorem elems_ext {p : ValueParser → List Nat → POut} (hp : StableExt p) :
    ∀ (n : Nat) (st : ValueParser) (b t : List Nat),
      parseElemsWith p n st b ≠ EOut.more → parseElemsWith p n st b ≠ EOut.fuelOut →
      parseElemsWith p n st (b ++ t) = (parseElemsWith p n st b).appendRest t := by
  intro n
  induction n with
  | zero => intro st b t _ _; rfl
  | succ m ih =>
    intro st b t hm hf
    cases hpb : p st b with
    | ok r st1 rest =>
      have hm2 : parseElemsWith p m st1 rest ≠ EOut.more := by
        intro hcontra
        exact hm (by rw [parseElemsWith]; simp only [hpb, hcontra])
      have hf2 : parseElemsWith p m st1 rest ≠ EOut.fuelOut := by
        intro hcontra
        exact hf (by rw [parseElemsWith]; simp only [hpb, hcontra])
      have hstep := hp st b t (by rw [hpb]; nofun) (by rw [hpb]; nofun)
      rw [hpb] at hstep
      simp only [POut.appendRest] at hstep
      have hrecstep := ih st1 rest t hm2 hf2
      simp only [parseElemsWith, hpb, hstep, hrecstep]
      cases hrec : parseElemsWith p m st1 rest <;> rfl
    | more =>
      exact absurd (by rw [parseElemsWith]; simp only [hpb]) hm
    | fuelOut =>
      exact absurd (by rw [parseElemsWith]; simp only [hpb]) hf
    | err e =>
      have hstep := hp st b t (by rw [hpb]; nofun) (by rw [hpb]; nofun)
      rw [hpb] at hstep
      simp only [POut.appendRest] at hstep
      simp only [parseElemsWith, hpb, hstep]
      rfl
    | broken =>
      have hstep := hp st b t (by rw [hpb]; nofun) (by rw [hpb]; nofun)
      rw [hpb] at hstep
      simp only [POut.appendRest] at hstep
      simp only [parseElemsWith, hpb, hstep]
      rfl

theorem parseValueF_ext {p : ValueParser → List Nat → POut} (hp : StableExt p) :
    StableExt (parseValueF p) := by
  intro st b t hm hf
  cases b with
  | nil => exact absurd rfl hm
  | cons x rest =>
    by_cases h43 : x = 43
    · cases hl : lineP rest with
      | ok text r =>
        have hl2 := lineP_append_ok t hl
        cases hs : ValueParser.status st text with
        | some st1 =>
          simp only [parseValueF, List.cons_append, if_pos h43, hl, hl2, hs]
          rfl
        | none =>
          simp only [parseValueF, List.cons_append, if_pos h43, hl, hl2, hs]
          rfl
      | more =>
        exact absurd (by simp only [parseValueF, if_pos h43, hl]) hm
      | err e =>
        have hl2 := lineP_append_err t hl
        simp only [parseValueF, List.cons_append, if_pos h43, hl, hl2]
        rfl
    · by_cases h58 : x = 58
      · cases hi : intP rest with
        | ok n r =>
          have hi2 := intP_append_ok t hi
          cases hs : ValueParser.int st n with
          | some st1 =>
            simp only [parseValueF, List.cons_append, if_neg h43, if_pos h58, hi, hi2, hs]
            rfl
          | none =>
            simp only [parseValueF, List.cons_append, if_neg h43, if_pos h58, hi, hi2, hs]
            rfl
        | more =>
          exact absurd (by simp only [parseValueF, if_neg h43, if_pos h58, hi]) hm
        | err e =>
          have hi2 := intP_append_err t hi
          simp only [parseValueF, List.cons_append, if_neg h43, if_pos h58, hi, hi2]
          rfl
      · by_cases h36 : x = 36
        · cases hi : intP rest with
          | ok n r =>
            have hi2 := intP_append_ok t hi
            by_cases hneg : n < 0
            · cases hs : ValueParser.nil st with
              | some st1 =>
                simp only [parseValueF, List.cons_append, if_neg h43, if_neg h58,
                  if_pos h36, hi, hi2, if_pos hneg, hs]
                rfl
              | none =>
                simp only [parseValueF, List.cons_append, if_neg h43, if_neg h58,
                  if_pos h36, hi, hi2, if_pos hneg, hs]
                rfl
            · cases htk : takeN n.toNat r with
              | none =>
                exact absurd (by simp only [parseValueF, if_neg h43, if_neg h58,
                  if_pos h36, hi, if_neg hneg, htk]) hm
              | some pr =>
                obtain ⟨payload, r1⟩ := pr
                have htk2 := takeN_append t htk
                cases hd : ValueParser.data st payload with
                | none =>
                  simp only [parseValueF, List.cons_append, if_neg h43, if_neg h58,
                    if_pos h36, hi, hi2, if_neg hneg, htk, htk2, hd]
                  rfl
                | some st1 =>
                  cases r1 with
                  | nil =>
                    exact absurd (by simp only [parseValueF, if_neg h43, if_neg h58,
                      if_pos h36, hi, if_neg hneg, htk, hd]) hm
                  | cons c1 r1' =>
                    cases r1' with
                    | nil =>
                      by_cases hc1 : c1 = 13
                      · exact absurd (by simp only [parseValueF, if_neg h43, if_neg h58,
                          if_pos h36, hi, if_neg hneg, htk, hd, if_pos hc1]) hm
                      · cases t with
                        | nil =>
                          rw [List.append_nil]
                          cases ho : parseValueF p st (x :: rest) <;>
                            simp [POut.appendRest]
                        | cons t1 ts =>
                          have hcc : ¬(c1 = 13 ∧ t1 = 10) := fun hc => hc1 hc.1
                          simp only [parseValueF, List.cons_append, if_neg h43, if_neg h58,
                            if_pos h36, hi, hi2, if_neg hneg, htk, htk2, hd, if_neg hc1,
                            List.singleton_append, List.nil_append, if_neg hcc]
                          rfl
                    | cons c2 r2 =>
                      by_cases hcc : c1 = 13 ∧ c2 = 10
                      · simp only [parseValueF, List.cons_append, if_neg h43, if_neg h58,
                          if_pos h36, hi, hi2, if_neg hneg, htk, htk2, hd, if_pos hcc]
                        rfl
                      · simp only [parseValueF, List.cons_append, if_neg h43, if_neg h58,
                          if_pos h36, hi, hi2, if_neg hneg, htk, htk2, hd, if_neg hcc]
                        rfl
          | more =>
            exact absurd (by simp only [parseValueF, if_neg h43, if_neg h58,
              if_pos h36, hi]) hm
          | err e =>
            have hi2 := intP_append_err t hi
            simp only [parseValueF, List.cons_append, if_neg h43, if_neg h58,
              if_pos h36, hi, hi2]
            rfl
        · by_cases h42 : x = 42
          · cases hi : intP rest with
            | ok n r =>
              have hi2 := intP_append_ok t hi
              by_cases hneg : n < 0
              · cases hs : ValueParser.nil st with
                | some st1 =>
                  simp only [parseValueF, List.cons_append, if_neg h43, if_neg h58,
                    if_neg h36, if_pos h42, hi, hi2, if_pos hneg, hs]
                  rfl
                | none =>
                  simp only [parseValueF, List.cons_append, if_neg h43, if_neg h58,
                    if_neg h36, if_pos h42, hi, hi2, if_pos hneg, hs]
                  rfl
              · cases he : parseElemsWith p n.toNat (st.bulk_start n.toNat) r with
                | ok rs st1 r1 =>
                  have he2 := elems_ext hp n.toNat (st.bulk_start n.toNat) r t
                    (by rw [he]; nofun) (by rw [he]; nofun)
                  rw [he] at he2
                  simp only [EOut.appendRest] at he2
                  cases hbe : st1.bulk_end with
                  | some st2 =>
                    simp only [parseValueF, List.cons_append, if_neg h43, if_neg h58,
                      if_neg h36, if_pos h42, hi, hi2, if_neg hneg, he, he2, hbe]
                    rfl
                  | none =>
                    simp only [parseValueF, List.cons_append, if_neg h43, if_neg h58,
                      if_neg h36, if_pos h42, hi, hi2, if_neg hneg, he, he2, hbe]
                    rfl
                | more =>
                  exact absurd (by simp only [parseValueF, if_neg h43, if_neg h58,
                    if_neg h36, if_pos h42, hi, if_neg hneg, he]) hm
                | fuelOut =>
                  exact absurd (by simp only [parseValueF, if_neg h43, if_neg h58,
                    if_neg h36, if_pos h42, hi, if_neg hneg, he]) hf
                | err e =>
                  have he2 := elems_ext hp n.toNat (st.bulk_start n.toNat) r t
                    (by rw [he]; nofun) (by rw [he]; nofun)
                  rw [he] at he2
                  simp only [EOut.appendRest] at he2
                  simp only [parseValueF, List.cons_append, if_neg h43, if_neg h58,
                    if_neg h36, if_pos h42, hi, hi2, if_neg hneg, he, he2]
                  rfl
                | broken =>
                  have he2 := elems_ext hp n.toNat (st.bulk_start n.toNat) r t
                    (by rw [he]; nofun) (by rw [he]; nofun)
                  rw [he] at he2
                  simp only [EOut.appendRest] at he2
                  simp only [parseValueF, List.cons_append, if_neg h43, if_neg h58,
                    if_neg h36, if_pos h42, hi, hi2, if_neg hneg, he, he2]
                  rfl
            | more =>
              exact absurd (by simp only [parseValueF, if_neg h43, if_neg h58,
                if_neg h36, if_pos h42, hi]) hm
            | err e =>
              have hi2 := intP_append_err t hi
              simp only [parseValueF, List.cons_append, if_neg h43, if_neg h58,
                if_neg h36, if_pos h42, hi, hi2]
              rfl
          · by_cases h45 : x = 45
            · cases hl : lineP rest with
              | ok text r =>
                have hl2 := lineP_append_ok t hl
                simp only [parseValueF, List.cons_append, if_neg h43, if_neg h58,
                  if_neg h36, if_neg h42, if_pos h45, hl, hl2]
                rfl
              | more =>
                exact absurd (by simp only [parseValueF, if_neg h43, if_neg h58,
                  if_neg h36, if_neg h42, if_pos h45, hl]) hm
              | err e =>
                have hl2 := lineP_append_err t hl
                simp only [parseValueF, List.cons_append, if_neg h43, if_neg h58,
                  if_neg h36, if_neg h42, if_pos h45, hl, hl2]
                rfl
            · simp only [parseValueF, List.cons_append, if_neg h43, if_neg h58,
                if_neg h36, if_neg h42, if_neg h45]
              rfl

theorem parseValue_ext : ∀ fuel, StableExt (parseValue fuel) := by
  intro fuel
  induction fuel with
  | zero => intro st b t _ hf; exact absurd rfl hf
  | succ m ih => exact parseValueF_ext ih

theorem elems_consume {p : ValueParser → List Nat → POut} (hp : Consumes p) :
    ∀ (n : Nat) (st : ValueParser) (i : List Nat) {rs st1 rest},
      parseElemsWith p n st i = .ok rs st1 rest → ∃ c, i = c ++ rest := by
  intro n
  induction n with
  | zero =>
    intro st i rs st1 rest h
    rw [parseElemsWith] at h
    cases h
    exact ⟨[], rfl⟩
  | succ m ih =>
    intro st i rs st1 rest h
    rw [parseElemsWith] at h
    cases hpb : p st i with
    | ok r st2 rest2 =>
      rw [hpb] at h
      simp only [] at h
      cases hrec : parseElemsWith p m st2 rest2 with
      | ok rs3 st3 rest3 =>
        rw [hrec] at h
        cases h
        obtain ⟨c1, hc1⟩ := hp st i r st2 rest2 hpb
        obtain ⟨c2, hc2⟩ := ih st2 rest2 hrec
        exact ⟨c1 ++ c2, by rw [hc1.1, hc2, List.append_assoc]⟩
      | more => rw [hrec] at h; cases h
      | fuelOut => rw [hrec] at h; cases h
      | err e => rw [hrec] at h; cases h
      | broken => rw [hrec] at h; cases h
    | more => rw [hpb] at h; cases h
    | fuelOut => rw [hpb] at h; cases h
    | err e => rw [hpb] at h; cases h
    | broken => rw [hpb] at h; cases h

theorem parseValueF_consume {p : ValueParser → List Nat → POut} (hp : Consumes p) :
    Consumes (parseValueF p) := by
  intro st i r1 st1 rest1 h
  cases i with
  | nil => rw [parseValueF] at h; cases h
  | cons x rest =>
    by_cases h43 : x = 43
    · cases hl : lineP rest with
      | ok text r =>
        simp only [parseValueF, if_pos h43, hl] at h
        cases hs : ValueParser.status st text with
        | some st2 =>
          rw [hs] at h
          cases h
          obtain ⟨c, hc⟩ := lineP_consume hl
          exact ⟨x :: (c ++ [13, 10]), by simp [hc], by simp⟩
        | none => rw [hs] at h; cases h
      | more => simp only [parseValueF, if_pos h43, hl] at h; cases h
      | err e => simp only [parseValueF, if_pos h43, hl] at h; cases h
    · by_cases h58 : x = 58
      · cases hi : intP rest with
        | ok n r =>
          simp only [parseValueF, if_neg h43, if_pos h58, hi] at h
          cases hs : ValueParser.int st n with
          | some st2 =>
            rw [hs] at h
            cases h
            obtain ⟨c, hc⟩ := intP_consume hi
            exact ⟨x :: (c ++ [13, 10]), by simp [hc], by simp⟩
          | none => rw [hs] at h; cases h
        | more => simp only [parseValueF, if_neg h43, if_pos h58, hi] at h; cases h
        | err e => simp only [parseValueF, if_neg h43, if_pos h58, hi] at h; cases h
      · by_cases h36 : x = 36
        · cases hi : intP rest with
          | ok n r =>
            simp only [parseValueF, if_neg h43, if_neg h58, if_pos h36, hi] at h
            by_cases hneg : n < 0
            · rw [if_pos hneg] at h
              cases hs : ValueParser.nil st with
              | some st2 =>
                rw [hs] at h
                cases h
                obtain ⟨c, hc⟩ := intP_consume hi
                exact ⟨x :: (c ++ [13, 10]), by simp [hc], by simp⟩
              | none => rw [hs] at h; cases h
            · rw [if_neg hneg] at h
              cases htk : takeN n.toNat r with
              | none => rw [htk] at h; cases h
              | some pr =>
                obtain ⟨payload, rr⟩ := pr
                simp only [htk] at h
                cases hd : ValueParser.data st payload with
                | none => rw [hd] at h; cases h
                | some st2 =>
                  rw [hd] at h
                  cases rr with
                  | nil => cases h
                  | cons c1 rr2 =>
                    cases rr2 with
                    | nil =>
                      have h2 : (if c1 = 13 then POut.more
                          else POut.err PErr.expectedCrlf) = POut.ok r1 st1 rest1 := h
                      split at h2 <;> cases h2
                    | cons c2 rr3 =>
                      have h2 : (if c1 = 13 ∧ c2 = 10 then POut.ok RRes.ok st2 rr3
                          else POut.err PErr.expectedCrlf) = POut.ok r1 st1 rest1 := h
                      split at h2
                      next hcc =>
                        cases h2
                        obtain ⟨c, hc⟩ := intP_consume hi
                        obtain ⟨hr, hlen⟩ := takeN_eq n.toNat r htk
                        refine ⟨x :: (c ++ [13, 10] ++ payload ++ [c1, c2]), ?_, by simp⟩
                        simp [hc, hr, List.append_assoc]
                      next => cases h2
          | more => simp only [parseValueF, if_neg h43, if_neg h58, if_pos h36, hi] at h; cases h
          | err e => simp only [parseValueF, if_neg h43, if_neg h58, if_pos h36, hi] at h; cases h
        · by_cases h42 : x = 42
          · cases hi : intP rest with
            | ok n r =>
              simp only [parseValueF, if_neg h43, if_neg h58, if_neg h36, if_pos h42, hi] at h
              by_cases hneg : n < 0
              · rw [if_pos hneg] at h
                cases hs : ValueParser.nil st with
                | some st2 =>
                  rw [hs] at h
                  cases h
                  obtain ⟨c, hc⟩ := intP_consume hi
                  exact ⟨x :: (c ++ [13, 10]), by simp [hc], by simp⟩
                | none => rw [hs] at h; cases h
              · rw [if_neg hneg] at h
                cases he : parseElemsWith p n.toNat (st.bulk_start n.toNat) r with
                | ok rs st2 r2 =>
                  simp only [he] at h
                  cases hbe : st2.bulk_end with
                  | some st3 =>
                    rw [hbe] at h
                    cases h
                    obtain ⟨c, hc⟩ := intP_consume hi
                    obtain ⟨c2, hc2⟩ := elems_consume hp n.toNat _ r he
                    refine ⟨x :: (c ++ [13, 10] ++ c2), ?_, by simp⟩
                    simp [hc, hc2, List.append_assoc]
                  | none => rw [hbe] at h; cases h
                | more => rw [he] at h; cases h
                | fuelOut => rw [he] at h; cases h
                | err e => rw [he] at h; cases h
                | broken => rw [he] at h; cases h
            | more => simp only [parseValueF, if_neg h43, if_neg h58, if_neg h36, if_pos h42, hi] at h; cases h
            | err e => simp only [parseValueF, if_neg h43, if_neg h58, if_neg h36, if_pos h42, hi] at h; cases h
          · by_cases h45 : x = 45
            · cases hl : lineP rest with
              | ok text r =>
                simp only [parseValueF, if_neg h43, if_neg h58, if_neg h36, if_neg h42,
                  if_pos h45, hl] at h
                cases h
                obtain ⟨c, hc⟩ := lineP_consume hl
                exact ⟨x :: (c ++ [13, 10]), by simp [hc], by simp⟩
              | more =>
                simp only [parseValueF, if_neg h43, if_neg h58, if_neg h36, if_neg h42,
                  if_pos h45, hl] at h
                cases h
              | err e =>
                simp only [parseValueF, if_neg h43, if_neg h58, if_neg h36, if_neg h42,
                  if_pos h45, hl] at h
                cases h
            · simp only [parseValueF, if_neg h43, if_neg h58, if_neg h36, if_neg h42,
                if_neg h45] at h
              cases h

theorem parseValue_consume : ∀ fuel, Consumes (parseValue fuel) := by
  intro fuel
  induction fuel with
  | zero => intro st i r st1 rest h; rw [parseValue] at h; cases h
  | succ m ih => exact parseValueF_consume ih

theorem elems_agrees {p q : ValueParser → List Nat → POut} (hpq : Agrees p q) :
    ∀ (n : Nat) (st : ValueParser) (i : List Nat) (R : EOut), R ≠ EOut.fuelOut →
      parseElemsWith p n st i = R → parseElemsWith q n st i = R := by
  intro n
  induction n with
  | zero => intro st i R _ h; rw [parseElemsWith] at h; rw [parseElemsWith]; exact h
  | succ m ih =>
    intro st i R hR h
    rw [parseElemsWith] at h
    rw [parseElemsWith]
    cases hpb : p st i with
    | ok r st2 rest2 =>
      rw [hpb] at h
      rw [hpq st i _ (by nofun) hpb]
      simp only [] at h ⊢
      cases hrec : parseElemsWith p m st2 rest2 with
      | fuelOut => rw [hrec] at h; exact absurd h.symm (by simpa using hR)
      | ok rs st3 rest3 => rw [ih st2 rest2 _ (by nofun) hrec]; rw [hrec] at h; exact h
      | more => rw [ih st2 rest2 _ (by nofun) hrec]; rw [hrec] at h; exact h
      | err e => rw [ih st2 rest2 _ (by nofun) hrec]; rw [hrec] at h; exact h
      | broken => rw [ih st2 rest2 _ (by nofun) hrec]; rw [hrec] at h; exact h
    | more => rw [hpb] at h; rw [hpq st i _ (by nofun) hpb]; exact h
    | fuelOut => rw [hpb] at h; exact absurd h.symm (by simpa using hR)
    | err e => rw [hpb] at h; rw [hpq st i _ (by nofun) hpb]; exact h
    | broken => rw [hpb] at h; rw [hpq st i _ (by nofun) hpb]; exact h

theorem parseValueF_agrees {p q : ValueParser → List Nat → POut} (hpq : Agrees p q) :
    Agrees (parseValueF p) (parseValueF q) := by
  intro st i R hR h
  cases i with
  | nil => rw [parseValueF] at h ⊢; exact h
  | cons x rest =>
    by_cases h43 : x = 43
    · simp only [parseValueF, if_pos h43] at h ⊢
      exact h
    · by_cases h58 : x = 58
      · simp only [parseValueF, if_neg h43, if_pos h58] at h ⊢
        exact h
      · by_cases h36 : x = 36
        · simp only [parseValueF, if_neg h43, if_neg h58, if_pos h36] at h ⊢
          exact h
        · by_cases h42 : x = 42
          · simp only [parseValueF, if_neg h43, if_neg h58, if_neg h36, if_pos h42] at h ⊢
            cases hi : intP rest with
            | ok n r =>
              rw [hi] at h
              simp only [] at h ⊢
              by_cases hneg : n < 0
              · rw [if_pos hneg] at h ⊢
                exact h
              · rw [if_neg hneg] at h ⊢
                cases he : parseElemsWith p n.toNat (st.bulk_start n.toNat) r with
                | fuelOut =>
                  rw [he] at h
                  exact absurd h.symm (by simpa using hR)
                | ok rs st2 r2 =>
                  rw [elems_agrees hpq n.toNat _ r _ (by nofun) he]
                  rw [he] at h
                  exact h
                | more =>
                  rw [elems_agrees hpq n.toNat _ r _ (by nofun) he]
                  rw [he] at h
                  exact h
                | err e =>
                  rw [elems_agrees hpq n.toNat _ r _ (by nofun) he]
                  rw [he] at h
                  exact h
                | broken =>
                  rw [elems_agrees hpq n.toNat _ r _ (by nofun) he]
                  rw [he] at h
                  exact h
            | more => rw [hi] at h; exact h
            | err e => rw [hi] at h; exact h
          · simp only [parseValueF, if_neg h43, if_neg h58, if_neg h36, if_neg h42] at h ⊢
            exact h

theorem parseValue_agrees_succ : ∀ fuel, Agrees (parseValue fuel) (parseValue (fuel + 1)) := by
  intro fuel
  induction fuel with
  | zero =>
    intro st i R hR h
    rw [parseValue] at h
    exact absurd h.symm (by simpa using hR)
  | succ m ih => exact parseValueF_agrees ih

theorem parseValue_mono : ∀ {f g : Nat}, f ≤ g → Agrees (parseValue f) (parseValue g) := by
  intro f g hfg
  induction g with
  | zero =>
    have : f = 0 := Nat.le_zero.mp hfg
    subst this
    intro st i R _ h
    exact h
  | succ m ih =>
    rcases Nat.lt_or_ge f (m + 1) with hlt | hge
    · intro st i R hR h
      exact parseValue_agrees_succ m st i R hR (ih (Nat.lt_succ_iff.mp hlt) st i R hR h)
    · have : f = m + 1 := Nat.le_antisymm hfg hge
      subst this
      intro st i R _ h
      exact h

theorem elems_adequate {p : ValueParser → List Nat → POut} {F : Nat}
    (hpA : ∀ st j, j.length < F → p st j ≠ POut.fuelOut) (hpC : Consumes p) :
    ∀ (n : Nat) (st : ValueParser) (i : List Nat), i.length < F →
      parseElemsWith p n st i ≠ EOut.fuelOut := by
  intro n
  induction n with
  | zero => intro st i _ h; rw [parseElemsWith] at h; cases h
  | succ m ih =>
    intro st i hlen h
    rw [parseElemsWith] at h
    cases hpb : p st i with
    | ok r st2 rest2 =>
      rw [hpb] at h
      simp only [] at h
      cases hrec : parseElemsWith p m st2 rest2 with
      | fuelOut =>
        obtain ⟨c, hc⟩ := hpC st i r st2 rest2 hpb
        have : rest2.length ≤ i.length := by
          rw [hc.1]
          simp
        exact ih st2 rest2 (Nat.lt_of_le_of_lt this hlen) hrec
      | ok rs st3 rest3 => rw [hrec] at h; cases h
      | more => rw [hrec] at h; cases h
      | err e => rw [hrec] at h; cases h
      | broken => rw [hrec] at h; cases h
    | more => rw [hpb] at h; cases h
    | fuelOut => exact hpA st i hlen hpb
    | err e => rw [hpb] at h; cases h
    | broken => rw [hpb] at h; cases h

theorem parseValueF_adequate {p : ValueParser → List Nat → POut} {F : Nat}
    (hpA : ∀ st j, j.length < F → p st j ≠ POut.fuelOut) (hpC : Consumes p) :
    ∀ st i, i.length < F + 1 → parseValueF p st i ≠ POut.fuelOut := by
  intro st i hlen h
  cases i with
  | nil => rw [parseValueF] at h; cases h
  | cons x rest =>
    by_cases h43 : x = 43
    · simp only [parseValueF, if_pos h43] at h
      cases hl : lineP rest with
      | ok text r =>
        simp only [hl] at h
        cases hs : ValueParser.status st text <;> rw [hs] at h <;> cases h
      | more => rw [hl] at h; cases h
      | err e => rw [hl] at h; cases h
    · by_cases h58 : x = 58
      · simp only [parseValueF, if_neg h43, if_pos h58] at h
        cases hi : intP rest with
        | ok n r =>
          simp only [hi] at h
          cases hs : ValueParser.int st n <;> rw [hs] at h <;> cases h
        | more => rw [hi] at h; cases h
        | err e => rw [hi] at h; cases h
      · by_cases h36 : x = 36
        · simp only [parseValueF, if_neg h43, if_neg h58, if_pos h36] at h
          cases hi : intP rest with
          | ok n r =>
            simp only [hi] at h
            by_cases hneg : n < 0
            · rw [if_pos hneg] at h
              cases hs : ValueParser.nil st <;> rw [hs] at h <;> cases h
            · rw [if_neg hneg] at h
              cases htk : takeN n.toNat r with
              | none => rw [htk] at h; cases h
              | some pr =>
                obtain ⟨payload, rr⟩ := pr
                simp only [htk] at h
                cases hd : ValueParser.data st payload with
                | none => rw [hd] at h; cases h
                | some st2 =>
                  rw [hd] at h
                  cases rr with
                  | nil => cases h
                  | cons c1 rr2 =>
                    cases rr2 with
                    | nil =>
                      have h2 : (if c1 = 13 then POut.more
                          else POut.err PErr.expectedCrlf) = POut.fuelOut := h
                      split at h2 <;> cases h2
                    | cons c2 rr3 =>
                      have h2 : (if c1 = 13 ∧ c2 = 10 then POut.ok RRes.ok st2 rr3
                          else POut.err PErr.expectedCrlf) = POut.fuelOut := h
                      split at h2 <;> cases h2
          | more => rw [hi] at h; cases h
          | err e => rw [hi] at h; cases h
        · by_cases h42 : x = 42
          · simp only [parseValueF, if_neg h43, if_neg h58, if_neg h36, if_pos h42] at h
            cases hi : intP rest with
            | ok n r =>
              simp only [hi] at h
              by_cases hneg : n < 0
              · rw [if_pos hneg] at h
                cases hs : ValueParser.nil st <;> rw [hs] at h <;> cases h
              · rw [if_neg hneg] at h
                obtain ⟨c, hc⟩ := intP_consume hi
                have hrlen : r.length < F := by
                  have h1 : rest.length = c.length + (2 + r.length) := by
                    rw [hc]
                    simp
                    omega
                  have h2 : rest.length < F := by
                    simp only [List.length_cons] at hlen
                    omega
                  omega
                cases he : parseElemsWith p n.toNat (st.bulk_start n.toNat) r with
                | fuelOut => exact elems_adequate hpA hpC n.toNat _ r hrlen he
                | ok rs st2 r2 =>
                  simp only [he] at h
                  cases hbe : st2.bulk_end <;> rw [hbe] at h <;> cases h
                | more => rw [he] at h; cases h
                | err e => rw [he] at h; cases h
                | broken => rw [he] at h; cases h
            | more => rw [hi] at h; cases h
            | err e => rw [hi] at h; cases h
          · by_cases h45 : x = 45
            · simp only [parseValueF, if_neg h43, if_neg h58, if_neg h36, if_neg h42,
                if_pos h45] at h
              cases hl : lineP rest <;> rw [hl] at h <;> cases h
            · simp only [parseValueF, if_neg h43, if_neg h58, if_neg h36, if_neg h42,
                if_neg h45] at h
              cases h

theorem parseValue_adequate : ∀ (fuel : Nat) (st : ValueParser) (i : List Nat),
    i.length < fuel → parseValue fuel st i ≠ POut.fuelOut := by
  intro fuel
  induction fuel with
  | zero => intro st i hlen; omega
  | succ m ih => exact parseValueF_adequate ih (parseValue_consume m)

theorem elems_shape {p : ValueParser → List Nat → POut}
    (hpS : ShapePres p) (hpB : NeverBroken p) :
    ∀ (n : Nat) (st : ValueParser) (i : List Nat), WF st →
      (∀ rs st1 rest, parseElemsWith p n st i = EOut.ok rs st1 rest →
        WF st1 ∧ shape st1 = shape st) ∧
      parseElemsWith p n st i ≠ EOut.broken := by
  intro n
  induction n with
  | zero =>
    intro st i hWF
    constructor
    · intro rs st1 rest h
      rw [parseElemsWith] at h
      cases h
      exact ⟨hWF, rfl⟩
    · rw [parseElemsWith]
      nofun
  | succ m ih =>
    intro st i hWF
    cases hpb : p st i with
    | ok r st2 rest2 =>
      obtain ⟨hwf2, hsh2⟩ := hpS st i r st2 rest2 hWF hpb
      obtain ⟨ih1, ih2⟩ := ih st2 rest2 hwf2
      constructor
      · intro rs st1 rest h
        rw [parseElemsWith] at h
        simp only [hpb] at h
        cases hrec : parseElemsWith p m st2 rest2 with
        | ok rs3 st3 rest3 =>
          rw [hrec] at h
          cases h
          obtain ⟨hwf3, hsh3⟩ := ih1 _ _ _ hrec
          exact ⟨hwf3, by rw [hsh3, hsh2]⟩
        | more => rw [hrec] at h; cases h
        | fuelOut => rw [hrec] at h; cases h
        | err e => rw [hrec] at h; cases h
        | broken => rw [hrec] at h; cases h
      · intro h
        rw [parseElemsWith] at h
        simp only [hpb] at h
        cases hrec : parseElemsWith p m st2 rest2 with
        | broken => exact ih2 hrec
        | ok rs3 st3 rest3 => rw [hrec] at h; cases h
        | more => rw [hrec] at h; cases h
        | fuelOut => rw [hrec] at h; cases h
        | err e => rw [hrec] at h; cases h
    | more =>
      constructor
      · intro rs st1 rest h
        rw [parseElemsWith] at h
        rw [hpb] at h
        cases h
      · intro h
        rw [parseElemsWith] at h
        rw [hpb] at h
        cases h
    | fuelOut =>
      constructor
      · intro rs st1 rest h
        rw [parseElemsWith] at h
        rw [hpb] at h
        cases h
      · intro h
        rw [parseElemsWith] at h
        rw [hpb] at h
        cases h
    | err e =>
      constructor
      · intro rs st1 rest h
        rw [parseElemsWith] at h
        rw [hpb] at h
        cases h
      · intro h
        rw [parseElemsWith] at h
        rw [hpb] at h
        cases h
    | broken =>
      exact (hpB st i hWF hpb).elim

theorem parseValueF_shape {p : ValueParser → List Nat → POut}
    (hpS : ShapePres p) (hpB : NeverBroken p) :
    ∀ st i, WF st →
      (∀ r st1 rest, parseValueF p st i = POut.ok r st1 rest →
        WF st1 ∧ shape st1 = shape st) ∧
      parseValueF p st i ≠ POut.broken := by
  intro st i hWF
  cases i with
  | nil =>
    exact ⟨fun r st1 rest h => (by rw [parseValueF] at h; cases h),
      (by rw [parseValueF]; nofun)⟩
  | cons x rest =>
    by_cases h43 : x = 43
    · cases hl : lineP rest with
      | ok text r =>
        obtain ⟨st1, heq, hwf1, hsh1⟩ :=
          value_wf (if text = [79, 75] then Value.Okay else Value.Status text) hWF
        have hs : ValueParser.status st text = some st1 := heq
        have hval : parseValueF p st (x :: rest) = POut.ok RRes.ok st1 r := by
          simp only [parseValueF, if_pos h43, hl, hs]
        exact ⟨fun r' st1' rest' h => (by rw [hval] at h; cases h; exact ⟨hwf1, hsh1⟩),
          (by rw [hval]; nofun)⟩
      | more =>
        have hval : parseValueF p st (x :: rest) = POut.more := by
          simp only [parseValueF, if_pos h43, hl]
        exact ⟨fun r' st1' rest' h => (by rw [hval] at h; cases h), (by rw [hval]; nofun)⟩
      | err e =>
        have hval : parseValueF p st (x :: rest) = POut.err e := by
          simp only [parseValueF, if_pos h43, hl]
        exact ⟨fun r' st1' rest' h => (by rw [hval] at h; cases h), (by rw [hval]; nofun)⟩
    · by_cases h58 : x = 58
      · cases hi : intP rest with
        | ok n r =>
          obtain ⟨st1, heq, hwf1, hsh1⟩ := value_wf (Value.Int n) hWF
          have hs : ValueParser.int st n = some st1 := heq
          have hval : parseValueF p st (x :: rest) = POut.ok RRes.ok st1 r := by
            simp only [parseValueF, if_neg h43, if_pos h58, hi, hs]
          exact ⟨fun r' st1' rest' h => (by rw [hval] at h; cases h; exact ⟨hwf1, hsh1⟩),
            (by rw [hval]; nofun)⟩
        | more =>
          have hval : parseValueF p st (x :: rest) = POut.more := by
            simp only [parseValueF, if_neg h43, if_pos h58, hi]
          exact ⟨fun r' st1' rest' h => (by rw [hval] at h; cases h), (by rw [hval]; nofun)⟩
        | err e =>
          have hval : parseValueF p st (x :: rest) = POut.err e := by
            simp only [parseValueF, if_neg h43, if_pos h58, hi]
          exact ⟨fun r' st1' rest' h => (by rw [hval] at h; cases h), (by rw [hval]; nofun)⟩
      · by_cases h36 : x = 36
        · cases hi : intP rest with
          | ok n r =>
            by_cases hneg : n < 0
            · obtain ⟨st1, heq, hwf1, hsh1⟩ := value_wf Value.Nil hWF
              have hs : ValueParser.nil st = some st1 := heq
              have hval : parseValueF p st (x :: rest) = POut.ok RRes.ok st1 r := by
                simp only [parseValueF, if_neg h43, if_neg h58, if_pos h36, hi,
                  if_pos hneg, hs]
              exact ⟨fun r' st1' rest' h => (by rw [hval] at h; cases h; exact ⟨hwf1, hsh1⟩),
                (by rw [hval]; nofun)⟩
            · cases htk : takeN n.toNat r with
              | none =>
                have hval : parseValueF p st (x :: rest) = POut.more := by
                  simp only [parseValueF, if_neg h43, if_neg h58, if_pos h36, hi,
                    if_neg hneg, htk]
                exact ⟨fun r' st1' rest' h => (by rw [hval] at h; cases h),
                  (by rw [hval]; nofun)⟩
              | some pr =>
                obtain ⟨payload, rr⟩ := pr
                obtain ⟨st1, heq, hwf1, hsh1⟩ := value_wf (Value.Data payload) hWF
                have hs : ValueParser.data st payload = some st1 := heq
                cases rr with
                | nil =>
                  have hval : parseValueF p st (x :: rest) = POut.more := by
                    simp only [parseValueF, if_neg h43, if_neg h58, if_pos h36, hi,
                      if_neg hneg, htk, hs]
                  exact ⟨fun r' st1' rest' h => (by rw [hval] at h; cases h),
                    (by rw [hval]; nofun)⟩
                | cons c1 rr2 =>
                  cases rr2 with
                  | nil =>
                    by_cases hc1 : c1 = 13
                    · have hval : parseValueF p st (x :: rest) = POut.more := by
                        simp only [parseValueF, if_neg h43, if_neg h58, if_pos h36, hi,
                          if_neg hneg, htk, hs, if_pos hc1]
                      exact ⟨fun r' st1' rest' h => (by rw [hval] at h; cases h),
                        (by rw [hval]; nofun)⟩
                    · have hval : parseValueF p st (x :: rest) = POut.err .expectedCrlf := by
                        simp only [parseValueF, if_neg h43, if_neg h58, if_pos h36, hi,
                          if_neg hneg, htk, hs, if_neg hc1]
                      exact ⟨fun r' st1' rest' h => (by rw [hval] at h; cases h),
                        (by rw [hval]; nofun)⟩
                  | cons c2 rr3 =>
                    by_cases hcc : c1 = 13 ∧ c2 = 10
                    · have hval : parseValueF p st (x :: rest) = POut.ok RRes.ok st1 rr3 := by
                        simp only [parseValueF, if_neg h43, if_neg h58, if_pos h36, hi,
                          if_neg hneg, htk, hs, if_pos hcc]
                      exact ⟨fun r' st1' rest' h =>
                          (by rw [hval] at h; cases h; exact ⟨hwf1, hsh1⟩),
                        (by rw [hval]; nofun)⟩
                    · have hval : parseValueF p st (x :: rest) = POut.err .expectedCrlf := by
                        simp only [parseValueF, if_neg h43, if_neg h58, if_pos h36, hi,
                          if_neg hneg, htk, hs, if_neg hcc]
                      exact ⟨fun r' st1' rest' h => (by rw [hval] at h; cases h),
                        (by rw [hval]; nofun)⟩
          | more =>
            have hval : parseValueF p st (x :: rest) = POut.more := by
              simp only [parseValueF, if_neg h43, if_neg h58, if_pos h36, hi]
            exact ⟨fun r' st1' rest' h => (by rw [hval] at h; cases h), (by rw [hval]; nofun)⟩
          | err e =>
            have hval : parseValueF p st (x :: rest) = POut.err e := by
              simp only [parseValueF, if_neg h43, if_neg h58, if_pos h36, hi]
            exact ⟨fun r' st1' rest' h => (by rw [hval] at h; cases h), (by rw [hval]; nofun)⟩
        · by_cases h42 : x = 42
          · cases hi : intP rest with
            | ok n r =>
              by_cases hneg : n < 0
              · obtain ⟨st1, heq, hwf1, hsh1⟩ := value_wf Value.Nil hWF
                have hs : ValueParser.nil st = some st1 := heq
                have hval : parseValueF p st (x :: rest) = POut.ok RRes.ok st1 r := by
                  simp only [parseValueF, if_neg h43, if_neg h58, if_neg h36, if_pos h42,
                    hi, if_pos hneg, hs]
                exact ⟨fun r' st1' rest' h => (by rw [hval] at h; cases h; exact ⟨hwf1, hsh1⟩),
                  (by rw [hval]; nofun)⟩
              · obtain ⟨hWFA, hshA⟩ := bulk_start_wf st n.toNat
                obtain ⟨el1, el2⟩ := elems_shape hpS hpB n.toNat (st.bulk_start n.toNat) r hWFA
                cases he : parseElemsWith p n.toNat (st.bulk_start n.toNat) r with
                | ok rs st1 r1 =>
                  obtain ⟨hwf1, hsh1⟩ := el1 _ _ _ he
                  rw [hshA] at hsh1
                  cases st1 with
                  | Value v => exact absurd hsh1 (by simp [shape])
                  | Bulk fs =>
                    obtain ⟨st2, hbe, hwf2, hsh2⟩ := bulk_end_wf hwf1
                    have hsh3 : shape st2 = shape st := by
                      have : fs.length = shape st + 1 := hsh1
                      omega
                    have hval : parseValueF p st (x :: rest) =
                        POut.ok (resultExtendList rs) st2 r1 := by
                      simp only [parseValueF, if_neg h43, if_neg h58, if_neg h36,
                        if_pos h42, hi, if_neg hneg, he, hbe]
                    exact ⟨fun r' st1' rest' h =>
                        (by rw [hval] at h; cases h; exact ⟨hwf2, hsh3⟩),
                      (by rw [hval]; nofun)⟩
                | more =>
                  have hval : parseValueF p st (x :: rest) = POut.more := by
                    simp only [parseValueF, if_neg h43, if_neg h58, if_neg h36,
                      if_pos h42, hi, if_neg hneg, he]
                  exact ⟨fun r' st1' rest' h => (by rw [hval] at h; cases h),
                    (by rw [hval]; nofun)⟩
                | fuelOut =>
                  have hval : parseValueF p st (x :: rest) = POut.fuelOut := by
                    simp only [parseValueF, if_neg h43, if_neg h58, if_neg h36,
                      if_pos h42, hi, if_neg hneg, he]
                  exact ⟨fun r' st1' rest' h => (by rw [hval] at h; cases h),
                    (by rw [hval]; nofun)⟩
                | err e =>
                  have hval : parseValueF p st (x :: rest) = POut.err e := by
                    simp only [parseValueF, if_neg h43, if_neg h58, if_neg h36,
                      if_pos h42, hi, if_neg hneg, he]
                  exact ⟨fun r' st1' rest' h => (by rw [hval] at h; cases h),
                    (by rw [hval]; nofun)⟩
                | broken => exact (el2 he).elim
            | more =>
              have hval : parseValueF p st (x :: rest) = POut.more := by
                simp only [parseValueF, if_neg h43, if_neg h58, if_neg h36, if_pos h42, hi]
              exact ⟨fun r' st1' rest' h => (by rw [hval] at h; cases h), (by rw [hval]; nofun)⟩
            | err e =>
              have hval : parseValueF p st (x :: rest) = POut.err e := by
                simp only [parseValueF, if_neg h43, if_neg h58, if_neg h36, if_pos h42, hi]
              exact ⟨fun r' st1' rest' h => (by rw [hval] at h; cases h), (by rw [hval]; nofun)⟩
          · by_cases h45 : x = 45
            · cases hl : lineP rest with
              | ok text r =>
                have hval : parseValueF p st (x :: rest) =
                    POut.ok (.er (classifyError text)) st r := by
                  simp only [parseValueF, if_neg h43, if_neg h58, if_neg h36, if_neg h42,
                    if_pos h45, hl]
                exact ⟨fun r' st1' rest' h => (by rw [hval] at h; cases h; exact ⟨hWF, rfl⟩),
                  (by rw [hval]; nofun)⟩
              | more =>
                have hval : parseValueF p st (x :: rest) = POut.more := by
                  simp only [parseValueF, if_neg h43, if_neg h58, if_neg h36, if_neg h42,
                    if_pos h45, hl]
                exact ⟨fun r' st1' rest' h => (by rw [hval] at h; cases h), (by rw [hval]; nofun)⟩
              | err e =>
                have hval : parseValueF p st (x :: rest) = POut.err e := by
                  simp only [parseValueF, if_neg h43, if_neg h58, if_neg h36, if_neg h42,
                    if_pos h45, hl]
                exact ⟨fun r' st1' rest' h => (by rw [hval] at h; cases h), (by rw [hval]; nofun)⟩
            · have hval : parseValueF p st (x :: rest) = POut.err (.unexpectedByte x) := by
                simp only [parseValueF, if_neg h43, if_neg h58, if_neg h36, if_neg h42,
                  if_neg h45]
              exact ⟨fun r' st1' rest' h => (by rw [hval] at h; cases h), (by rw [hval]; nofun)⟩

theorem parseValue_shape : ∀ (fuel : Nat), ShapePres (parseValue fuel) ∧
    NeverBroken (parseValue fuel) := by
  intro fuel
  induction fuel with
  | zero =>
    constructor
    · intro st i r st1 rest _ h
      rw [parseValue] at h
      cases h
    · intro st i _ h
      rw [parseValue] at h
      cases h
  | succ m ih =>
    constructor
    · intro st i r st1 rest hWF h
      exact (parseValueF_shape ih.1 ih.2 st i hWF).1 r st1 rest h
    · intro st i hWF
      exact (parseValueF_shape ih.1 ih.2 st i hWF).2

theorem encodes_ne_nil {c : List Nat} {v : Value} (henc : Encodes c v) : c ≠ [] := by
  intro hnil
  subst hnil
  rw [Encodes] at henc
  rw [show ([] : List Nat).length + 1 = 1 from rfl] at henc
  cases henc

theorem encodes_extend {c : List Nat} {v : Value} (henc : Encodes c v) (t : List Nat) :
    parseValue (c.length + 1) (.Value .Nil) (c ++ t) = POut.ok RRes.ok (.Value v) t := by
  have hext := parseValue_ext (c.length + 1) (.Value .Nil) c t
    (by rw [henc]; nofun) (by rw [henc]; nofun)
  rw [henc] at hext
  simpa [POut.appendRest] using hext

theorem encodes_parse_at {c : List Nat} {v : Value} (henc : Encodes c v) (t : List Nat)
    (f : Nat) (hf : c.length + 1 ≤ f) :
    parseValue f (.Value .Nil) (c ++ t) = POut.ok RRes.ok (.Value v) t :=
  parseValue_mono hf _ _ _ (by nofun) (encodes_extend henc t)

theorem parse_prefix_more {c : List Nat} {v : Value} (henc : Encodes c v)
    {q r : List Nat} (hsplit : c = q ++ r) (hr : r ≠ []) :
    parseValue (q.length + 1) (.Value .Nil) q = POut.more := by
  cases hR : parseValue (q.length + 1) (.Value .Nil) q with
  | more => rfl
  | fuelOut =>
    exact absurd hR (parseValue_adequate (q.length + 1) _ q (by omega))
  | broken =>
    exact absurd hR ((parseValue_shape (q.length + 1)).2 (ValueParser.Value Value.Nil) q
      True.intro)
  | ok r1 st1 rest1 =>
    exfalso
    have hext := parseValue_ext (q.length + 1) (.Value .Nil) q r
      (by rw [hR]; nofun) (by rw [hR]; nofun)
    rw [hR] at hext
    simp only [POut.appendRest] at hext
    rw [← hsplit] at hext
    have hle : q.length + 1 ≤ c.length + 1 := by
      rw [hsplit]
      simp
    have h3 := parseValue_mono hle (ValueParser.Value Value.Nil) c
      (POut.ok r1 st1 (rest1 ++ r)) (by nofun) hext
    rw [henc] at h3
    injection h3 with h4 h5 h6
    obtain ⟨-, hre⟩ := List.append_eq_nil.mp h6.symm
    exact hr hre
  | err e =>
    exfalso
    have hext := parseValue_ext (q.length + 1) (.Value .Nil) q r
      (by rw [hR]; nofun) (by rw [hR]; nofun)
    rw [hR] at hext
    simp only [POut.appendRest] at hext
    rw [← hsplit] at hext
    have hle : q.length + 1 ≤ c.length + 1 := by
      rw [hsplit]
      simp
    have h3 := parseValue_mono hle (ValueParser.Value Value.Nil) c
      (POut.err e) (by nofun) hext
    rw [henc] at h3
    cases h3

theorem decodeOne_encodes {c : List Nat} {v : Value} (henc : Encodes c v) (t : List Nat) :
    decodeOne (c ++ t) = some (v, t) := by
  have h := encodes_parse_at henc t ((c ++ t).length + 1) (by simp)
  simp only [decodeOne, h, ValueParser.take]

theorem decodeOne_more {i : List Nat}
    (h : parseValue (i.length + 1) (.Value .Nil) i = POut.more) : decodeOne i = none := by
  simp only [decodeOne, h]

theorem decodeOne_shorter {i : List Nat} {v : Value} {rest : List Nat}
    (h : decodeOne i = some (v, rest)) : rest.length < i.length := by
  rw [decodeOne] at h
  cases hR : parseValue (i.length + 1) (.Value .Nil) i with
  | ok r st1 rest1 =>
    rw [hR] at h
    cases r with
    | ok =>
      simp only [] at h
      cases htk : st1.take with
      | none => rw [htk] at h; cases h
      | some pr =>
        rw [htk] at h
        cases h
        obtain ⟨c, hc, hcne⟩ := parseValue_consume (i.length + 1) _ i _ _ _ hR
        rw [hc]
        simp
        exact List.length_pos.mpr hcne
    | er e => simp only [] at h; cases h
  | more => rw [hR] at h; cases h
  | fuelOut => rw [hR] at h; cases h
  | err e => rw [hR] at h; cases h
  | broken => rw [hR] at h; cases h

theorem decodeAll_fuel : ∀ (n : Nat) (i : List Nat), i.length ≤ n →
    ∀ (f g : Nat), i.length < f → i.length < g → decodeAll f i = decodeAll g i := by
  intro n
  induction n with
  | zero =>
    intro i hle f g hf hg
    have : i = [] := List.length_eq_zero.mp (Nat.le_zero.mp hle)
    subst this
    cases f with
    | zero => omega
    | succ f2 =>
      cases g with
      | zero => omega
      | succ g2 => rfl
  | succ m ih =>
    intro i hle f g hf hg
    cases f with
    | zero => omega
    | succ f2 =>
      cases g with
      | zero => omega
      | succ g2 =>
        rw [decodeAll, decodeAll]
        cases hone : decodeOne i with
        | none => rfl
        | some pr =>
          obtain ⟨v, rest⟩ := pr
          have hlt := decodeOne_shorter hone
          have heq : decodeAll f2 rest = decodeAll g2 rest :=
            ih rest (by omega) f2 g2 (by omega) (by omega)
          simp only [heq]

theorem goodStream_more_nil {s : List Nat} {vs : List Value} (h : GoodStream s vs)
    (hm : parseValue (s.length + 1) (.Value .Nil) s = POut.more) : s = [] ∧ vs = [] := by
  cases h with
  | nil => exact ⟨rfl, rfl⟩
  | cons henc hgood =>
    exfalso
    next c v s2 vs2 =>
    have hext := encodes_parse_at henc s2 ((c ++ s2).length + 1) (by simp)
    rw [hm] at hext
    cases hext

theorem decodeAll_nil : ∀ (f : Nat), decodeAll f [] = ([], []) := by
  intro f
  cases f with
  | zero => rfl
  | succ m => rfl

theorem goodStream_split : ∀ {s : List Nat} {vs : List Value}, GoodStream s vs →
    ∀ (q r : List Nat), s = q ++ r →
      ∃ vs1 vs2 l, vs = vs1 ++ vs2 ∧ decodeAllA q = (vs1, l) ∧
        GoodStream (l ++ r) vs2 ∧
        parseValue (l.length + 1) (.Value .Nil) l = POut.more := by
  intro s vs h
  induction h with
  | nil =>
    intro q r hqr
    obtain ⟨hq, hr⟩ := List.append_eq_nil.mp hqr.symm
    subst hq
    subst hr
    exact ⟨[], [], [], rfl, rfl, GoodStream.nil, rfl⟩
  | cons henc hgood ih =>
    next c v s2 vs2 =>
    intro q r hqr
    rcases List.append_eq_append_iff.mp hqr.symm with ⟨a2, hca, hra⟩ | ⟨c2, hqc, hrc⟩
    · -- c = q ++ a2 : q stops inside, or exactly at the end of, the first encoding
      cases a2 with
      | nil =>
        simp only [List.append_nil] at hca
        subst hca
        simp only [List.nil_append] at hra
        subst hra
        refine ⟨[v], vs2, [], rfl, ?_, by simpa using hgood, rfl⟩
        rw [decodeAllA, decodeAll]
        have hone : decodeOne c = some (v, []) := by
          have h0 := decodeOne_encodes henc []
          simpa using h0
        simp only [hone, decodeAll_nil]
      | cons a1 a2t =>
        have hmore := parse_prefix_more henc hca (by nofun)
        refine ⟨[], v :: vs2, q, rfl, ?_, ?_, hmore⟩
        · rw [decodeAllA, decodeAll]
          simp only [decodeOne_more hmore]
        · have heq : q ++ r = c ++ s2 := by
            rw [hca, hra, List.append_assoc]
          rw [heq]
          exact GoodStream.cons henc hgood
    · -- q = c ++ c2 : the first encoding is fully inside q
      subst hqc
      obtain ⟨vs1x, vs2x, l, hvs, hdec, hgood2, hpend2⟩ := ih c2 r hrc
      refine ⟨v :: vs1x, vs2x, l, by simp [hvs], ?_, hgood2, hpend2⟩
      rw [decodeAllA, decodeAll]
      simp only [decodeOne_encodes henc c2]
      have hfuel : decodeAll (c ++ c2).length c2 = decodeAllA c2 := by
        have hcne := encodes_ne_nil henc
        have hclen : 0 < c.length := List.length_pos.mpr hcne
        refine decodeAll_fuel c2.length c2 (Nat.le_refl _) _ _ ?_ (Nat.lt_succ_self _)
        simp
        omega
      simp only [hfuel, hdec]

theorem goodStream_decodeAllA {s : List Nat} {vs : List Value} (h : GoodStream s vs) :
    decodeAllA s = (vs, []) := by
  obtain ⟨vs1, vs2, l, hvs, hdec, hgood2, hpend⟩ := goodStream_split h s [] (by simp)
  rw [List.append_nil] at hgood2
  obtain ⟨hl, hvs2⟩ := goodStream_more_nil hgood2 hpend
  subst hl
  subst hvs2
  rw [List.append_nil] at hvs
  subst hvs
  exact hdec

theorem feedChunks_good : ∀ (chunks : List (List Nat)) (pending : List Nat) {vs : List Value},
    GoodStream (pending ++ chunks.flatten) vs →
    parseValue (pending.length + 1) (.Value .Nil) pending = POut.more →
    feedChunks chunks pending = (vs, []) := by
  intro chunks
  induction chunks with
  | nil =>
    intro pending vs hgood hpend
    rw [List.flatten_nil, List.append_nil] at hgood
    obtain ⟨hp, hv⟩ := goodStream_more_nil hgood hpend
    subst hp
    subst hv
    rfl
  | cons ch chunks2 ih =>
    intro pending vs hgood hpend
    rw [List.flatten_cons, ← List.append_assoc] at hgood
    obtain ⟨vs1, vs2, l, hvs, hdec, hgood2, hpend2⟩ :=
      goodStream_split hgood (pending ++ ch) chunks2.flatten rfl
    rw [feedChunks]
    simp only [hdec]
    rw [ih l hgood2 hpend2]
    rw [hvs]

theorem pv_error_line {content text : List Nat} (hf : crlfFree content = true)
    (hu : utf8Decode content = some text) (fuel : Nat) (st : ValueParser) (rest : List Nat) :
    parseValue (fuel + 1) st (45 :: content ++ 13 :: 10 :: rest) =
      POut.ok (.er (classifyError text)) st rest := by
  rw [parseValue]
  have hl := lineP_crlfFree rest hf hu
  simp [parseValueF, hl]

theorem pv_status_line {content text : List Nat} (hf : crlfFree content = true)
    (hu : utf8Decode content = some text) (fuel : Nat) (w : Value) (rest : List Nat) :
    parseValue (fuel + 1) (.Value w) (43 :: content ++ 13 :: 10 :: rest) =
      POut.ok .ok (.Value (if text = [79, 75] then .Okay else .Status text)) rest := by
  rw [parseValue]
  have hl := lineP_crlfFree rest hf hu
  simp [parseValueF, hl, ValueParser.status, ValueParser.value]

theorem pv_int_line {content text : List Nat} {n : Int} (hf : crlfFree content = true)
    (hu : utf8Decode content = some text) (hp : parseI64 (trimWs text) = some n)
    (fuel : Nat) (w : Value) (rest : List Nat) :
    parseValue (fuel + 1) (.Value w) (58 :: content ++ 13 :: 10 :: rest) =
      POut.ok .ok (.Value (.Int n)) rest := by
  rw [parseValue]
  have hi := intP_crlfFree rest hf hu hp
  simp [parseValueF, hi, ValueParser.int, ValueParser.value]

theorem pv_int_garbage {content text : List Nat} (hf : crlfFree content = true)
    (hu : utf8Decode content = some text) (hp : parseI64 (trimWs text) = none)
    (fuel : Nat) (st : ValueParser) (rest : List Nat) :
    parseValue (fuel + 1) st (58 :: content ++ 13 :: 10 :: rest) = POut.err .garbage := by
  rw [parseValue]
  have hi := intP_crlfFree_garbage rest hf hu hp
  simp [parseValueF, hi]

theorem pv_data_garbage {content text : List Nat} (hf : crlfFree content = true)
    (hu : utf8Decode content = some text) (hp : parseI64 (trimWs text) = none)
    (fuel : Nat) (st : ValueParser) (rest : List Nat) :
    parseValue (fuel + 1) st (36 :: content ++ 13 :: 10 :: rest) = POut.err .garbage := by
  rw [parseValue]
  have hi := intP_crlfFree_garbage rest hf hu hp
  simp [parseValueF, hi]

theorem pv_bulk_garbage {content text : List Nat} (hf : crlfFree content = true)
    (hu : utf8Decode content = some text) (hp : parseI64 (trimWs text) = none)
    (fuel : Nat) (st : ValueParser) (rest : List Nat) :
    parseValue (fuel + 1) st (42 :: content ++ 13 :: 10 :: rest) = POut.err .garbage := by
  rw [parseValue]
  have hi := intP_crlfFree_garbage rest hf hu hp
  simp [parseValueF, hi]

theorem pv_data_neg {content text : List Nat} {n : Int} (hf : crlfFree content = true)
    (hu : utf8Decode content = some text) (hp : parseI64 (trimWs text) = some n)
    (hn : n < 0) (fuel : Nat) (w : Value) (rest : List Nat) :
    parseValue (fuel + 1) (.Value w) (36 :: content ++ 13 :: 10 :: rest) =
      POut.ok .ok (.Value .Nil) rest := by
  rw [parseValue]
  have hi := intP_crlfFree rest hf hu hp
  simp [parseValueF, hi, hn, ValueParser.nil, ValueParser.value]

theorem pv_bulk_neg {content text : List Nat} {n : Int} (hf : crlfFree content = true)
    (hu : utf8Decode content = some text) (hp : parseI64 (trimWs text) = some n)
    (hn : n < 0) (fuel : Nat) (w : Value) (rest : List Nat) :
    parseValue (fuel + 1) (.Value w) (42 :: content ++ 13 :: 10 :: rest) =
      POut.ok .ok (.Value .Nil) rest := by
  rw [parseValue]
  have hi := intP_crlfFree rest hf hu hp
  simp [parseValueF, hi, hn, ValueParser.nil, ValueParser.value]

theorem pv_data_ok {content text payload : List Nat} {n : Int} (hf : crlfFree content = true)
    (hu : utf8Decode content = some text) (hp : parseI64 (trimWs text) = some n)
    (hn : ¬n < 0) (hlen : payload.length = n.toNat) (fuel : Nat) (w : Value) (rest : List Nat) :
    parseValue (fuel + 1) (.Value w)
        (36 :: content ++ 13 :: 10 :: (payload ++ 13 :: 10 :: rest)) =
      POut.ok .ok (.Value (.Data payload)) rest := by
  rw [parseValue]
  have hi := intP_crlfFree (payload ++ 13 :: 10 :: rest) hf hu hp
  have htk : takeN n.toNat (payload ++ 13 :: 10 :: rest) = some (payload, 13 :: 10 :: rest) := by
    rw [← hlen]
    exact takeN_exact payload (13 :: 10 :: rest)
  simp [parseValueF, hi, hn, htk, ValueParser.data, ValueParser.value]

theorem pv_data_more {content text avail : List Nat} {n : Int} (hf : crlfFree content = true)
    (hu : utf8Decode content = some text) (hp : parseI64 (trimWs text) = some n)
    (hn : ¬n < 0) (hlen : avail.length < n.toNat) (fuel : Nat) (st : ValueParser) :
    parseValue (fuel + 1) st (36 :: content ++ 13 :: 10 :: avail) = POut.more := by
  rw [parseValue]
  have hi := intP_crlfFree avail hf hu hp
  have htk := takeN_short n.toNat avail hlen
  simp [parseValueF, hi, hn, htk]

theorem pv_data_badterm {content text payload : List Nat} {n : Int} {x y : Nat}
    (hf : crlfFree content = true) (hu : utf8Decode content = some text)
    (hp : parseI64 (trimWs text) = some n) (hn : ¬n < 0) (hlen : payload.length = n.toNat)
    (hxy : ¬(x = 13 ∧ y = 10)) (fuel : Nat) (w : Value) (rest : List Nat) :
    parseValue (fuel + 1) (.Value w)
        (36 :: content ++ 13 :: 10 :: (payload ++ x :: y :: rest)) =
      POut.err .expectedCrlf := by
  rw [parseValue]
  have hi := intP_crlfFree (payload ++ x :: y :: rest) hf hu hp
  have htk : takeN n.toNat (payload ++ x :: y :: rest) = some (payload, x :: y :: rest) := by
    rw [← hlen]
    exact takeN_exact payload (x :: y :: rest)
  simp [parseValueF, hi, hn, htk, ValueParser.data, ValueParser.value, hxy]

theorem pv_status_any {content text : List Nat} (hf : crlfFree content = true)
    (hu : utf8Decode content = some text) (fuel : Nat) {st st1 : ValueParser}
    (hs : ValueParser.status st text = some st1) (rest : List Nat) :
    parseValue (fuel + 1) st (43 :: content ++ 13 :: 10 :: rest) =
      POut.ok .ok st1 rest := by
  rw [parseValue]
  have hl := lineP_crlfFree rest hf hu
  simp [parseValueF, hl, hs]


theorem pv_bulk_arm {content text : List Nat} {n : Int} (hf : crlfFree content = true)
    (hu : utf8Decode content = some text) (hp : parseI64 (trimWs text) = some n)
    (hn : ¬n < 0) (fuel : Nat) (st : ValueParser) (r : List Nat) :
    parseValue (fuel + 1) st (42 :: content ++ 13 :: 10 :: r) =
      (match parseElemsWith (parseValue fuel) n.toNat (st.bulk_start n.toNat) r with
       | .ok rs st1 r1 =>
         match st1.bulk_end with
         | some st2 => POut.ok (resultExtendList rs) st2 r1
         | none => POut.broken
       | .more => POut.more
       | .fuelOut => POut.fuelOut
       | .err e => POut.err e
       | .broken => POut.broken) := by
  rw [parseValue]
  have hi := intP_crlfFree r hf hu hp
  simp [parseValueF, hi, hn]

theorem resultExtend_replicate_ok : ∀ (m : Nat),
    resultExtendList (List.replicate m RRes.ok) = RRes.ok := by
  intro m
  induction m with
  | zero => rfl
  | succ k ih =>
    simp only [List.replicate_succ, resultExtendList]
    exact ih

theorem resultExtend_first : ∀ (m : Nat) (e : RedisError) (R2 : List RRes),
    resultExtendList (List.replicate m RRes.ok ++ RRes.er e :: R2) = RRes.er e := by
  intro m e R2
  induction m with
  | zero => rfl
  | succ k ih =>
    simp only [List.replicate_succ, List.cons_append, resultExtendList]
    exact ih

theorem bulk_end_concat : ∀ (fs : List (List Value)) (f x : List Value),
    ValueParser.bulk_end (ValueParser.Bulk ((fs ++ [f]) ++ [x])) =
      some (ValueParser.Bulk (fs ++ [f ++ [Value.Bulk x]])) := by
  intro fs f x
  cases fs with
  | nil => simp [ValueParser.bulk_end, popLast, pushLast]
  | cons g gs =>
    have hpop := popLast_concat ((g :: gs) ++ [f]) x
    have hpush := pushLast_concat (g :: gs) f (Value.Bulk x)
    simp only [List.cons_append] at hpop hpush
    simp only [ValueParser.bulk_end, List.cons_append, hpop, hpush]

theorem elems_elem_step {p : ValueParser → List Nat → POut} (k : Nat) {st : ValueParser}
    {input : List Nat} {r : RRes} {st1 : ValueParser} {rest2 : List Nat}
    (h : p st input = POut.ok r st1 rest2) :
    parseElemsWith p (k + 1) st input =
      (match parseElemsWith p k st1 rest2 with
       | .ok rs st2 r2 => EOut.ok (r :: rs) st2 r2
       | .more => EOut.more
       | .fuelOut => EOut.fuelOut
       | .err e => EOut.err e
       | .broken => EOut.broken) := by
  rw [parseElemsWith, h]

theorem elems_prefix_seg : ∀ (gs : List (List Nat × List Nat)), GoodLines gs →
    ∀ (fs : List (List Value)) (f : List Value) (k : Nat) (rest : List Nat) (fuel : Nat),
    parseElemsWith (parseValue (fuel + 1)) (gs.length + k) (ValueParser.Bulk (fs ++ [f]))
      ((gs.map statusLineBytes).flatten ++ rest) =
    (match parseElemsWith (parseValue (fuel + 1)) k
        (ValueParser.Bulk (fs ++ [f ++ gs.map statusVal])) rest with
     | .ok rs st2 r2 => EOut.ok (List.replicate gs.length RRes.ok ++ rs) st2 r2
     | .more => EOut.more
     | .fuelOut => EOut.fuelOut
     | .err e => EOut.err e
     | .broken => EOut.broken) := by
  intro gs
  induction gs with
  | nil =>
    intro _ fs f k rest fuel
    simp only [List.length_nil, Nat.zero_add, List.map_nil, List.flatten_nil, List.nil_append,
      List.append_nil, List.replicate_zero]
    cases hE : parseElemsWith (parseValue (fuel + 1)) k (ValueParser.Bulk (fs ++ [f])) rest <;>
      simp [hE]
  | cons g gs ih =>
    intro hg fs f k rest fuel
    have hgood := hg g (List.mem_cons_self g gs)
    have hst : ValueParser.status (ValueParser.Bulk (fs ++ [f])) g.2 =
        some (ValueParser.Bulk (fs ++ [f ++ [statusVal g]])) := by
      simp [ValueParser.status, ValueParser.value, pushLast_concat, statusVal]
    have hone := pv_status_any hgood.1 hgood.2 fuel hst
      ((gs.map statusLineBytes).flatten ++ rest)
    have hrec := ih (fun q hq => hg q (List.mem_cons_of_mem g hq)) fs (f ++ [statusVal g])
      k rest fuel
    simp only [List.length_cons, List.map_cons, List.flatten_cons, statusLineBytes,
      List.cons_append, List.nil_append, List.append_assoc]
    rw [Nat.add_right_comm gs.length 1 k]
    simp only [parseElemsWith]
    simp only [statusLineBytes, List.cons_append, List.nil_append, List.append_assoc] at hone
    simp only [hone, hrec]
    simp only [List.append_assoc, List.cons_append, List.nil_append, List.replicate_succ]
    cases hE : parseElemsWith (parseValue (fuel + 1)) k
        (ValueParser.Bulk (fs ++ [f ++ (statusVal g :: List.map statusVal gs)])) rest <;>
      simp [hE]

theorem elems_status_all : ∀ (gs : List (List Nat × List Nat)), GoodLines gs →
    ∀ (fs : List (List Value)) (f : List Value) (rest : List Nat) (fuel : Nat),
    parseElemsWith (parseValue (fuel + 1)) gs.length (ValueParser.Bulk (fs ++ [f]))
      ((gs.map statusLineBytes).flatten ++ rest) =
    EOut.ok (List.replicate gs.length RRes.ok)
      (ValueParser.Bulk (fs ++ [f ++ gs.map statusVal])) rest := by
  intro gs hg fs f rest fuel
  have h := elems_prefix_seg gs hg fs f 0 rest fuel
  rw [show gs.length = gs.length + 0 from rfl, h]
  simp [parseElemsWith]

/-- C2: a well-formed server error reply (`-` marker, CRLF-free UTF-8 line)
is not a failure of the decoder: the `value()` grammar completes (it neither
suspends nor raises a framing error), hands the classified error back as its
ordinary output data, and leaves the builder untouched; the drivers at the
outermost boundary then surface it as a failure — `decode_stream` advances
the buffer past the whole reply (the stream stays in sync) before returning
the error, and `parse_value` returns the error. -/
theorem C2_error_reply_completes {content text : List Nat} (hf : crlfFree content = true)
    (hu : utf8Decode content = some text) (rest : List Nat) :
    (∀ fuel st, parseValue (fuel + 1) st (45 :: content ++ 13 :: 10 :: rest) =
      POut.ok (.er (classifyError text)) st rest) ∧
    decode_stream (45 :: content ++ 13 :: 10 :: rest) false =
      .fail (classifyError text) (content.length + 3) ∧
    parse_value (45 :: content ++ 13 :: 10 :: rest) = .fail (classifyError text) := by
  have hpv := fun fuel st => pv_error_line hf hu fuel st rest
  refine ⟨hpv, ?_, ?_⟩
  · have hp2 := hpv (45 :: content ++ 13 :: 10 :: rest).length (.Value .Nil)
    simp only [decode_stream, hp2]
    congr 1
    simp
    omega
  · have hp2 := hpv (45 :: content ++ 13 :: 10 :: rest).length (.Value .Nil)
    simp only [parse_value, hp2]

/-- C2 witness: `-ERR x\r\n` decodes as the classified response error,
surfaced by both drivers, with the streaming driver advancing past the whole
reply. -/
theorem C2_witness :
    parse_value (45 :: [69, 82, 82, 32, 120] ++ 13 :: 10 :: []) =
      .fail (.server .ResponseError descServer (some [120])) ∧
    decode_stream (45 :: [69, 82, 82, 32, 120] ++ 13 :: 10 :: []) false =
      .fail (.server .ResponseError descServer (some [120])) 8 := by
  have h := @C2_error_reply_completes [69, 82, 82, 32, 120] [69, 82, 82, 32, 120] rfl rfl []
  constructor
  · rw [h.2.2]
    rfl
  · rw [h.2.1]
    rfl

/-- C3 counterexample: the claim says a negative declared value other than
-1 is not legal, but the code maps every negative declared length/count to
`Nil`: `$-2\r\n` and `*-2\r\n` both decode to a value. -/
theorem C3_counterexample :
    decode_stream [36, 45, 50, 13, 10] false = .got Value.Nil 5 ∧
    decode_stream [42, 45, 50, 13, 10] false = .got Value.Nil 5 := by
  exact ⟨rfl, rfl⟩

/-- C3 amended: a declared length/count of -1 decodes to `Nil` for both bulk
strings (`$`) and arrays (`*`), and in fact every negative declared value
does the same — the grammar only tests `size < 0` and never rejects other
negative values. -/
theorem C3_negative_length_nil {content text : List Nat} {n : Int}
    (hf : crlfFree content = true) (hu : utf8Decode content = some text)
    (hp : parseI64 (trimWs text) = some n) (hn : n < 0) :
    ∀ fuel (w : Value) rest,
      parseValue (fuel + 1) (.Value w) (36 :: content ++ 13 :: 10 :: rest) =
        POut.ok .ok (.Value .Nil) rest ∧
      parseValue (fuel + 1) (.Value w) (42 :: content ++ 13 :: 10 :: rest) =
        POut.ok .ok (.Value .Nil) rest :=
  fun fuel w rest =>
    ⟨pv_data_neg hf hu hp hn fuel w rest, pv_bulk_neg hf hu hp hn fuel w rest⟩

/-- C3 witness: `$-1\r\n`, `*-1\r\n` and `$-2\r\n` all decode to `Nil`. -/
theorem C3_witness :
    parseValue 6 (.Value .Nil) (36 :: [45, 49] ++ 13 :: 10 :: []) =
      POut.ok .ok (.Value .Nil) [] ∧
    parseValue 6 (.Value .Nil) (42 :: [45, 49] ++ 13 :: 10 :: []) =
      POut.ok .ok (.Value .Nil) [] ∧
    parseValue 6 (.Value .Nil) (36 :: [45, 50] ++ 13 :: 10 :: []) =
      POut.ok .ok (.Value .Nil) [] := by
  refine ⟨?_, ?_, ?_⟩
  · exact (@C3_negative_length_nil [45, 49] [45, 49] (-1) rfl rfl rfl (by decide) 5 .Nil []).1
  · exact (@C3_negative_length_nil [45, 49] [45, 49] (-1) rfl rfl rfl (by decide) 5 .Nil []).2
  · exact (@C3_negative_length_nil [45, 50] [45, 50] (-2) rfl rfl rfl (by decide) 5 .Nil []).1

theorem splitSpace_no_space : ∀ (l : List Nat), ¬32 ∈ l → splitAtFirstSpace l = (l, none) := by
  intro l
  induction l with
  | nil => intro _; rfl
  | cons b rest ih =>
    intro h
    have hb : ¬b = 32 := fun hc => h (by rw [hc]; exact List.mem_cons_self 32 rest)
    have hrest : ¬32 ∈ rest := fun hc => h (List.mem_cons_of_mem b hc)
    rw [splitAtFirstSpace, if_neg hb, ih hrest]

theorem splitSpace_first : ∀ (tok rest : List Nat), ¬32 ∈ tok →
    splitAtFirstSpace (tok ++ 32 :: rest) = (tok, some rest) := by
  intro tok
  induction tok with
  | nil => intro rest _; rw [List.nil_append, splitAtFirstSpace, if_pos rfl]
  | cons b tok2 ih =>
    intro rest h
    have hb : ¬b = 32 := fun hc => h (by rw [hc]; exact List.mem_cons_self 32 tok2)
    have htok : ¬32 ∈ tok2 := fun hc => h (List.mem_cons_of_mem b hc)
    rw [List.cons_append, splitAtFirstSpace, if_neg hb, ih rest htok]

/-- C5: the error classifier splits on the first space, matches the first
token case-sensitively against the fixed table of known codes (an unknown
first token becomes an extension error with that token as tag and the
remainder, if present, as detail), and is a total function: every line
yields some error value. -/
theorem C5_classifier_rule :
    (∀ tok rest : List Nat, ¬32 ∈ tok →
      classifyError (tok ++ 32 :: rest) =
        (match errorCodeKind tok with
         | some k => RedisError.server k descServer (some rest)
         | none => make_extension_error tok (some rest))) ∧
    (∀ line : List Nat, ¬32 ∈ line →
      classifyError line =
        (match errorCodeKind line with
         | some k => RedisError.server k descServer none
         | none => make_extension_error line none)) := by
  constructor
  · intro tok rest h
    rw [classifyError, splitSpace_first tok rest h]
  · intro line h
    rw [classifyError, splitSpace_no_space line h]

/-- C5 witness: `ERR x` classifies as the known response-error code with
detail `x`; lowercase `err x` does not match the table (case sensitivity)
and becomes an extension error with tag `err`; a bare known code has no
detail; a bare unknown token is an extension error with no detail. -/
theorem C5_witness :
    classifyError ([69, 82, 82] ++ 32 :: [120]) =
      RedisError.server .ResponseError descServer (some [120]) ∧
    classifyError ([101, 114, 114] ++ 32 :: [120]) =
      RedisError.extensionError [101, 114, 114] (some [120]) ∧
    classifyError [84, 82, 89, 65, 71, 65, 73, 78] =
      RedisError.server .TryAgain descServer none ∧
    classifyError [87, 69, 73, 82, 68] = RedisError.extensionError [87, 69, 73, 82, 68] none := by
  refine ⟨?_, ?_, ?_, ?_⟩
  · rw [C5_classifier_rule.1 [69, 82, 82] [120] (by decide)]
    rfl
  · rw [C5_classifier_rule.1 [101, 114, 114] [120] (by decide)]
    rfl
  · rw [C5_classifier_rule.2 [84, 82, 89, 65, 71, 65, 73, 78] (by decide)]
    rfl
  · rw [C5_classifier_rule.2 [87, 69, 73, 82, 68] (by decide)]
    rfl

/-- C7: for a bulk string with non-negative declared length `n`, the decoder
takes exactly `n` payload bytes — suspending whenever fewer than `n` are
available — then requires the two-byte terminator immediately after them; the
produced `Data` value holds exactly those `n` bytes, and any other byte pair
in the terminator position is the protocol error `expectedCrlf`. -/
theorem C7_bulk_payload_exact {content text : List Nat} {n : Int}
    (hf : crlfFree content = true) (hu : utf8Decode content = some text)
    (hp : parseI64 (trimWs text) = some n) (hn : 0 ≤ n) :
    (∀ fuel (w : Value) payload rest, payload.length = n.toNat →
      parseValue (fuel + 1) (.Value w)
          (36 :: content ++ 13 :: 10 :: (payload ++ 13 :: 10 :: rest)) =
        POut.ok .ok (.Value (.Data payload)) rest) ∧
    (∀ fuel st avail, avail.length < n.toNat →
      parseValue (fuel + 1) st (36 :: content ++ 13 :: 10 :: avail) = POut.more) ∧
    (∀ fuel (w : Value) payload x y rest, payload.length = n.toNat → ¬(x = 13 ∧ y = 10) →
      parseValue (fuel + 1) (.Value w)
          (36 :: content ++ 13 :: 10 :: (payload ++ x :: y :: rest)) =
        POut.err .expectedCrlf) := by
  refine ⟨?_, ?_, ?_⟩
  · intro fuel w payload rest hl
    exact pv_data_ok hf hu hp (not_lt.mpr hn) hl fuel w rest
  · intro fuel st avail hl
    exact pv_data_more hf hu hp (not_lt.mpr hn) hl fuel st
  · intro fuel w payload x y rest hl hxy
    exact pv_data_badterm hf hu hp (not_lt.mpr hn) hl hxy fuel w rest

/-- C7 witness: `$3\r\nfoo\r\n` produces `Data "foo"`; `$3\r\nfo` suspends;
`$3\r\nfooXY` is the expected-CRLF protocol error. -/
theorem C7_witness :
    parseValue 10 (.Value .Nil) (36 :: [51] ++ 13 :: 10 :: ([102, 111, 111] ++ 13 :: 10 :: [])) =
      POut.ok .ok (.Value (.Data [102, 111, 111])) [] ∧
    parseValue 10 (.Value .Nil) (36 :: [51] ++ 13 :: 10 :: [102, 111]) = POut.more ∧
    parseValue 10 (.Value .Nil) (36 :: [51] ++ 13 :: 10 :: ([102, 111, 111] ++ 88 :: 89 :: [])) =
      POut.err .expectedCrlf := by
  have h := @C7_bulk_payload_exact [51] [51] 3 rfl rfl rfl (by decide)
  refine ⟨h.1 9 .Nil [102, 111, 111] [] rfl, h.2.1 9 _ [102, 111] (by decide),
    h.2.2 9 .Nil [102, 111, 111] 88 89 [] rfl (by decide)⟩

/-- C9: the length/count prefix lines of `$` and `*` are parsed with the same
whitespace-trimming signed base-10 integer rule as `:` integer replies: a
line whose trimmed text fails to parse is the same "Expected integer, got
garbage" protocol error for all three markers, and a line whose trimmed text
parses to `n` declares exactly `n` — the `:` arm produces `Int n`, the `$`
arm reads an `n`-byte payload, and the `*` arm parses exactly `n` elements
(an array whose count line declares `n` followed by `n` status replies
decodes to a `Bulk` of exactly those `n` values, leaving any following bytes
unconsumed). -/
theorem C9_length_prefix_trimmed_int {content text : List Nat}
    (hf : crlfFree content = true) (hu : utf8Decode content = some text) :
    (parseI64 (trimWs text) = none → ∀ fuel st rest,
      parseValue (fuel + 1) st (58 :: content ++ 13 :: 10 :: rest) = POut.err .garbage ∧
      parseValue (fuel + 1) st (36 :: content ++ 13 :: 10 :: rest) = POut.err .garbage ∧
      parseValue (fuel + 1) st (42 :: content ++ 13 :: 10 :: rest) = POut.err .garbage) ∧
    (∀ n : Int, parseI64 (trimWs text) = some n → ∀ fuel (w : Value) rest,
      parseValue (fuel + 1) (.Value w) (58 :: content ++ 13 :: 10 :: rest) =
        POut.ok .ok (.Value (.Int n)) rest) ∧
    (∀ n : Int, parseI64 (trimWs text) = some n → ¬n < 0 →
      ∀ fuel (w : Value) payload rest, payload.length = n.toNat →
        parseValue (fuel + 1) (.Value w)
            (36 :: content ++ 13 :: 10 :: (payload ++ 13 :: 10 :: rest)) =
          POut.ok .ok (.Value (.Data payload)) rest) ∧
    (∀ n : Int, parseI64 (trimWs text) = some n → ¬n < 0 → ∀ fuel (w : Value) rest,
      parseValue (fuel + 1 + 1) (.Value w)
          (42 :: content ++ 13 :: 10 ::
            ((List.replicate n.toNat [43, 79, 75, 13, 10]).flatten ++ rest)) =
        POut.ok .ok (.Value (.Bulk (List.replicate n.toNat Value.Okay))) rest) := by
  refine ⟨?_, ?_, ?_, ?_⟩
  · intro hnone fuel st rest
    exact ⟨pv_int_garbage hf hu hnone fuel st rest, pv_data_garbage hf hu hnone fuel st rest,
      pv_bulk_garbage hf hu hnone fuel st rest⟩
  · intro n hsome fuel w rest
    exact pv_int_line hf hu hsome fuel w rest
  · intro n hsome hneg fuel w payload rest hl
    exact pv_data_ok hf hu hsome hneg hl fuel w rest
  · intro n hsome hneg fuel w rest
    have hgood : GoodLines (List.replicate n.toNat ([79, 75], [79, 75])) := by
      intro p hp
      rw [List.eq_of_mem_replicate hp]
      exact ⟨rfl, rfl⟩
    have hb : (List.replicate n.toNat ([79, 75], [79, 75])).map statusLineBytes =
        List.replicate n.toNat [43, 79, 75, 13, 10] := by
      rw [List.map_replicate]
      rfl
    have hv : (List.replicate n.toNat ([79, 75], [79, 75])).map statusVal =
        List.replicate n.toNat Value.Okay := by
      rw [List.map_replicate]
      rfl
    have hlen : (List.replicate n.toNat ([79, 75], [79, 75])).length = n.toNat :=
      List.length_replicate n.toNat ([79, 75], [79, 75])
    rw [pv_bulk_arm hf hu hsome hneg (fuel + 1) (.Value w)
      ((List.replicate n.toNat [43, 79, 75, 13, 10]).flatten ++ rest), ← hb]
    have hseg := elems_status_all (List.replicate n.toNat ([79, 75], [79, 75])) hgood
      [] [] rest fuel
    rw [hlen, hv] at hseg
    simp only [List.nil_append] at hseg
    simp only [ValueParser.bulk_start, hseg, ValueParser.bulk_end, popLast,
      resultExtend_replicate_ok]

/-- C9 witness: the whitespace-padded header `$ 3 \r\n` declares length 3
(`$ 3 \r\nfoo\r\n` decodes to `Data "foo"`), `: 3 \r\n` is `Int 3`,
`* 3 \r\n` followed by three `+OK\r\n` elements decodes to a three-element
array, and the non-numeric line `abc` is the same garbage error under `:`,
`$` and `*`. -/
theorem C9_witness :
    parseValue 12 (.Value .Nil)
        (36 :: [32, 51, 32] ++ 13 :: 10 :: ([102, 111, 111] ++ 13 :: 10 :: [])) =
      POut.ok .ok (.Value (.Data [102, 111, 111])) [] ∧
    parseValue 12 (.Value .Nil) (58 :: [32, 51, 32] ++ 13 :: 10 :: []) =
      POut.ok .ok (.Value (.Int 3)) [] ∧
    parseValue 13 (.Value .Nil)
        (42 :: [32, 51, 32] ++ 13 :: 10 ::
          [43, 79, 75, 13, 10, 43, 79, 75, 13, 10, 43, 79, 75, 13, 10]) =
      POut.ok .ok (.Value (.Bulk [Value.Okay, Value.Okay, Value.Okay])) [] ∧
    parseValue 12 (.Value .Nil) (58 :: [97, 98, 99] ++ 13 :: 10 :: []) = POut.err .garbage ∧
    parseValue 12 (.Value .Nil) (36 :: [97, 98, 99] ++ 13 :: 10 :: []) = POut.err .garbage ∧
    parseValue 12 (.Value .Nil) (42 :: [97, 98, 99] ++ 13 :: 10 :: []) = POut.err .garbage := by
  have hpad := @C9_length_prefix_trimmed_int [32, 51, 32] [32, 51, 32] rfl rfl
  have habc := @C9_length_prefix_trimmed_int [97, 98, 99] [97, 98, 99] rfl rfl
  obtain ⟨h1, h2, h3⟩ := habc.1 rfl 11 (.Value .Nil) []
  exact ⟨hpad.2.2.1 3 rfl (by decide) 11 .Nil [102, 111, 111] [] rfl,
    hpad.2.1 3 rfl 11 .Nil [],
    hpad.2.2.2 3 rfl (by decide) 11 .Nil [],
    h1, h2, h3⟩
theorem pv_array_error_mid {hc ht : List Nat} {m : Int} (hhf : crlfFree hc = true)
    (hhu : utf8Decode hc = some ht) (hhp : parseI64 (trimWs ht) = some m)
    {pre post : List (List Nat × List Nat)} (hpre : GoodLines pre) (hpost : GoodLines post)
    {e1 t1 : List Nat} (hf1 : crlfFree e1 = true) (hu1 : utf8Decode e1 = some t1)
    (hm : m.toNat = pre.length + (post.length + 1)) :
    ∀ fuel (w : Value) rest,
      parseValue (fuel + 1 + 1) (.Value w)
          (42 :: hc ++ 13 :: 10 ::
            ((pre.map statusLineBytes).flatten ++
              (45 :: e1 ++ 13 :: 10 :: ((post.map statusLineBytes).flatten ++ rest)))) =
        POut.ok (.er (classifyError t1))
          (.Value (.Bulk (pre.map statusVal ++ post.map statusVal))) rest := by
  intro fuel w rest
  have hneg : ¬m < 0 := by omega
  rw [pv_bulk_arm hhf hhu hhp hneg (fuel + 1) (.Value w)
    ((pre.map statusLineBytes).flatten ++
      (45 :: e1 ++ 13 :: 10 :: ((post.map statusLineBytes).flatten ++ rest)))]
  have hseg1 := elems_prefix_seg pre hpre [] [] (post.length + 1)
    (45 :: e1 ++ 13 :: 10 :: ((post.map statusLineBytes).flatten ++ rest)) fuel
  have he1 := pv_error_line hf1 hu1 fuel (ValueParser.Bulk [pre.map statusVal])
    ((post.map statusLineBytes).flatten ++ rest)
  have hseg2 := elems_status_all post hpost [] (pre.map statusVal) rest fuel
  simp only [List.nil_append] at hseg1 hseg2
  simp only [hm, ValueParser.bulk_start]
  rw [hseg1, elems_elem_step post.length he1, hseg2]
  simp only [ValueParser.bulk_end, popLast, resultExtend_first]

theorem pv_array_two_errors {hc3 ht3 : List Nat} {m3 : Int} (hhf3 : crlfFree hc3 = true)
    (hhu3 : utf8Decode hc3 = some ht3) (hhp3 : parseI64 (trimWs ht3) = some m3)
    {pre mid post : List (List Nat × List Nat)}
    (hpre : GoodLines pre) (hmid : GoodLines mid) (hpost : GoodLines post)
    {e1 t1 e2 t2 : List Nat} (hf1 : crlfFree e1 = true) (hu1 : utf8Decode e1 = some t1)
    (hf2 : crlfFree e2 = true) (hu2 : utf8Decode e2 = some t2)
    (hm3 : m3.toNat = pre.length + ((mid.length + (post.length + 1)) + 1)) :
    ∀ fuel (w : Value) rest,
      parseValue (fuel + 1 + 1) (.Value w)
          (42 :: hc3 ++ 13 :: 10 ::
            ((pre.map statusLineBytes).flatten ++
              (45 :: e1 ++ 13 :: 10 ::
                ((mid.map statusLineBytes).flatten ++
                  (45 :: e2 ++ 13 :: 10 :: ((post.map statusLineBytes).flatten ++ rest)))))) =
        POut.ok (.er (classifyError t1))
          (.Value (.Bulk ((pre.map statusVal ++ mid.map statusVal) ++ post.map statusVal)))
          rest := by
  intro fuel w rest
  have hneg : ¬m3 < 0 := by omega
  rw [pv_bulk_arm hhf3 hhu3 hhp3 hneg (fuel + 1) (.Value w)
    ((pre.map statusLineBytes).flatten ++
      (45 :: e1 ++ 13 :: 10 ::
        ((mid.map statusLineBytes).flatten ++
          (45 :: e2 ++ 13 :: 10 :: ((post.map statusLineBytes).flatten ++ rest)))))]
  have hseg1 := elems_prefix_seg pre hpre [] [] ((mid.length + (post.length + 1)) + 1)
    (45 :: e1 ++ 13 :: 10 ::
      ((mid.map statusLineBytes).flatten ++
        (45 :: e2 ++ 13 :: 10 :: ((post.map statusLineBytes).flatten ++ rest)))) fuel
  have he1 := pv_error_line hf1 hu1 fuel (ValueParser.Bulk [pre.map statusVal])
    ((mid.map statusLineBytes).flatten ++
      (45 :: e2 ++ 13 :: 10 :: ((post.map statusLineBytes).flatten ++ rest)))
  have hseg2 := elems_prefix_seg mid hmid [] (pre.map statusVal) (post.length + 1)
    (45 :: e2 ++ 13 :: 10 :: ((post.map statusLineBytes).flatten ++ rest)) fuel
  have he2 := pv_error_line hf2 hu2 fuel
    (ValueParser.Bulk [pre.map statusVal ++ mid.map statusVal])
    ((post.map statusLineBytes).flatten ++ rest)
  have hseg3 := elems_status_all post hpost [] (pre.map statusVal ++ mid.map statusVal)
    rest fuel
  simp only [List.nil_append] at hseg1 hseg2 hseg3
  simp only [hm3, ValueParser.bulk_start]
  rw [hseg1, elems_elem_step (mid.length + (post.length + 1)) he1, hseg2,
    elems_elem_step post.length he2, hseg3]
  simp only [ValueParser.bulk_end, popLast, resultExtend_first]

theorem pv_array_error_nested {hc ht hc2 ht2 : List Nat} {m m2 : Int} (hhf : crlfFree hc = true)
    (hhu : utf8Decode hc = some ht) (hhp : parseI64 (trimWs ht) = some m)
    (hhf2 : crlfFree hc2 = true) (hhu2 : utf8Decode hc2 = some ht2)
    (hhp2 : parseI64 (trimWs ht2) = some m2)
    {pre post ipre ipost : List (List Nat × List Nat)}
    (hpre : GoodLines pre) (hpost : GoodLines post)
    (hipre : GoodLines ipre) (hipost : GoodLines ipost)
    {e1 t1 : List Nat} (hf1 : crlfFree e1 = true) (hu1 : utf8Decode e1 = some t1)
    (hm : m.toNat = pre.length + (post.length + 1))
    (hm2 : m2.toNat = ipre.length + (ipost.length + 1)) :
    ∀ fuel (w : Value) rest,
      parseValue (fuel + 1 + 1 + 1) (.Value w)
          (42 :: hc ++ 13 :: 10 ::
            ((pre.map statusLineBytes).flatten ++
              (42 :: hc2 ++ 13 :: 10 ::
                ((ipre.map statusLineBytes).flatten ++
                  (45 :: e1 ++ 13 :: 10 ::
                    ((ipost.map statusLineBytes).flatten ++
                      ((post.map statusLineBytes).flatten ++ rest))))))) =
        POut.ok (.er (classifyError t1))
          (.Value (.Bulk ((pre.map statusVal ++
              [Value.Bulk (ipre.map statusVal ++ ipost.map statusVal)]) ++
            post.map statusVal)))
          rest := by
  intro fuel w rest
  have hneg : ¬m < 0 := by omega
  have hneg2 : ¬m2 < 0 := by omega
  have hinner : parseValue (fuel + 1 + 1) (ValueParser.Bulk [pre.map statusVal])
      (42 :: hc2 ++ 13 :: 10 ::
        ((ipre.map statusLineBytes).flatten ++
          (45 :: e1 ++ 13 :: 10 ::
            ((ipost.map statusLineBytes).flatten ++
              ((post.map statusLineBytes).flatten ++ rest))))) =
      POut.ok (.er (classifyError t1))
        (ValueParser.Bulk
          [pre.map statusVal ++ [Value.Bulk (ipre.map statusVal ++ ipost.map statusVal)]])
        ((post.map statusLineBytes).flatten ++ rest) := by
    rw [pv_bulk_arm hhf2 hhu2 hhp2 hneg2 (fuel + 1) (ValueParser.Bulk [pre.map statusVal])
      ((ipre.map statusLineBytes).flatten ++
        (45 :: e1 ++ 13 :: 10 ::
          ((ipost.map statusLineBytes).flatten ++
            ((post.map statusLineBytes).flatten ++ rest))))]
    have hseg1 := elems_prefix_seg ipre hipre [pre.map statusVal] [] (ipost.length + 1)
      (45 :: e1 ++ 13 :: 10 ::
        ((ipost.map statusLineBytes).flatten ++
          ((post.map statusLineBytes).flatten ++ rest))) fuel
    have he1 := pv_error_line hf1 hu1 fuel
      (ValueParser.Bulk ([pre.map statusVal] ++ [ipre.map statusVal]))
      ((ipost.map statusLineBytes).flatten ++ ((post.map statusLineBytes).flatten ++ rest))
    have hseg2 := elems_status_all ipost hipost [pre.map statusVal] (ipre.map statusVal)
      ((post.map statusLineBytes).flatten ++ rest) fuel
    have hbe := bulk_end_concat [] (pre.map statusVal)
      (ipre.map statusVal ++ ipost.map statusVal)
    simp only [List.nil_append] at hseg1 hbe
    simp only [hm2, ValueParser.bulk_start]
    rw [hseg1, elems_elem_step ipost.length he1, hseg2]
    simp only [hbe, resultExtend_first]
  rw [pv_bulk_arm hhf hhu hhp hneg (fuel + 1 + 1) (.Value w)
    ((pre.map statusLineBytes).flatten ++
      (42 :: hc2 ++ 13 :: 10 ::
        ((ipre.map statusLineBytes).flatten ++
          (45 :: e1 ++ 13 :: 10 ::
            ((ipost.map statusLineBytes).flatten ++
              ((post.map statusLineBytes).flatten ++ rest))))))]
  have hseg0 := elems_prefix_seg pre hpre [] [] (post.length + 1)
    (42 :: hc2 ++ 13 :: 10 ::
      ((ipre.map statusLineBytes).flatten ++
        (45 :: e1 ++ 13 :: 10 ::
          ((ipost.map statusLineBytes).flatten ++
            ((post.map statusLineBytes).flatten ++ rest))))) (fuel + 1)
  have hseg3 := elems_status_all post hpost []
    (pre.map statusVal ++ [Value.Bulk (ipre.map statusVal ++ ipost.map statusVal)])
    rest (fuel + 1)
  simp only [List.nil_append] at hseg0 hseg3
  simp only [hm, ValueParser.bulk_start]
  rw [hseg0, elems_elem_step post.length hinner, hseg3]
  simp only [ValueParser.bulk_end, popLast, resultExtend_first]

/-- C10: when a server error reply occurs as an element inside an array — at
any position, for any declared element count, with arbitrary status elements
before and after it — the element loop still parses and consumes the bytes of
all remaining declared elements of that array (and, for an error nested in an
inner array, of the enclosing array) before reporting; the outcome reported
for the whole value is the first error in stream order (`ResultExtend` keeps
the first `Err`: with a second error element anywhere later the earlier one
is reported, and `resultExtendList` yields the first error of any result
sequence after any number of `Ok` items), and the streaming driver advances
exactly past the complete top-level value. -/
theorem C10_first_error_consumes_all {hc ht hc2 ht2 hc3 ht3 : List Nat} {m m2 m3 : Int}
    (hhf : crlfFree hc = true) (hhu : utf8Decode hc = some ht)
    (hhp : parseI64 (trimWs ht) = some m)
    (hhf2 : crlfFree hc2 = true) (hhu2 : utf8Decode hc2 = some ht2)
    (hhp2 : parseI64 (trimWs ht2) = some m2)
    (hhf3 : crlfFree hc3 = true) (hhu3 : utf8Decode hc3 = some ht3)
    (hhp3 : parseI64 (trimWs ht3) = some m3)
    {pre mid post ipre ipost : List (List Nat × List Nat)}
    (hpre : GoodLines pre) (hmid : GoodLines mid) (hpost : GoodLines post)
    (hipre : GoodLines ipre) (hipost : GoodLines ipost)
    {e1 t1 e2 t2 : List Nat}
    (hf1 : crlfFree e1 = true) (hu1 : utf8Decode e1 = some t1)
    (hf2 : crlfFree e2 = true) (hu2 : utf8Decode e2 = some t2)
    (hm : m.toNat = pre.length + (post.length + 1))
    (hm2 : m2.toNat = ipre.length + (ipost.length + 1))
    (hm3 : m3.toNat = pre.length + ((mid.length + (post.length + 1)) + 1)) :
    (∀ fuel (w : Value) rest,
      parseValue (fuel + 1 + 1) (.Value w)
          (42 :: hc ++ 13 :: 10 ::
            ((pre.map statusLineBytes).flatten ++
              (45 :: e1 ++ 13 :: 10 :: ((post.map statusLineBytes).flatten ++ rest)))) =
        POut.ok (.er (classifyError t1))
          (.Value (.Bulk (pre.map statusVal ++ post.map statusVal))) rest) ∧
    (∀ (k : Nat) (e : RedisError) (R2 : List RRes),
      resultExtendList (List.replicate k RRes.ok ++ RRes.er e :: R2) = RRes.er e) ∧
    (∀ fuel (w : Value) rest,
      parseValue (fuel + 1 + 1) (.Value w)
          (42 :: hc3 ++ 13 :: 10 ::
            ((pre.map statusLineBytes).flatten ++
              (45 :: e1 ++ 13 :: 10 ::
                ((mid.map statusLineBytes).flatten ++
                  (45 :: e2 ++ 13 :: 10 :: ((post.map statusLineBytes).flatten ++ rest)))))) =
        POut.ok (.er (classifyError t1))
          (.Value (.Bulk ((pre.map statusVal ++ mid.map statusVal) ++ post.map statusVal)))
          rest) ∧
    (∀ fuel (w : Value) rest,
      parseValue (fuel + 1 + 1 + 1) (.Value w)
          (42 :: hc ++ 13 :: 10 ::
            ((pre.map statusLineBytes).flatten ++
              (42 :: hc2 ++ 13 :: 10 ::
                ((ipre.map statusLineBytes).flatten ++
                  (45 :: e1 ++ 13 :: 10 ::
                    ((ipost.map statusLineBytes).flatten ++
                      ((post.map statusLineBytes).flatten ++ rest))))))) =
        POut.ok (.er (classifyError t1))
          (.Value (.Bulk ((pre.map statusVal ++
              [Value.Bulk (ipre.map statusVal ++ ipost.map statusVal)]) ++
            post.map statusVal)))
          rest) ∧
    decode_stream
        (42 :: hc ++ 13 :: 10 ::
          ((pre.map statusLineBytes).flatten ++
            (45 :: e1 ++ 13 :: 10 :: ((post.map statusLineBytes).flatten ++ [])))) false =
      DecodeOut.fail (classifyError t1)
        (42 :: hc ++ 13 :: 10 ::
          ((pre.map statusLineBytes).flatten ++
            (45 :: e1 ++ 13 :: 10 :: ((post.map statusLineBytes).flatten ++ [])))).length := by
  have hflat := pv_array_error_mid hhf hhu hhp hpre hpost hf1 hu1 hm
  refine ⟨hflat, resultExtend_first, pv_array_two_errors hhf3 hhu3 hhp3 hpre hmid hpost hf1 hu1 hf2 hu2 hm3,
    pv_array_error_nested hhf hhu hhp hhf2 hhu2 hhp2 hpre hpost hipre hipost hf1 hu1 hm hm2, ?_⟩
  have h4 : parseValue ((42 :: hc ++ 13 :: 10 ::
      ((pre.map statusLineBytes).flatten ++
        (45 :: e1 ++ 13 :: 10 :: ((post.map statusLineBytes).flatten ++ [])))).length + 1)
      (.Value .Nil)
      (42 :: hc ++ 13 :: 10 ::
        ((pre.map statusLineBytes).flatten ++
          (45 :: e1 ++ 13 :: 10 :: ((post.map statusLineBytes).flatten ++ [])))) =
      POut.ok (.er (classifyError t1))
        (.Value (.Bulk (pre.map statusVal ++ post.map statusVal))) [] := by
    have hle : 0 + 1 + 1 ≤ (42 :: hc ++ 13 :: 10 ::
        ((pre.map statusLineBytes).flatten ++
          (45 :: e1 ++ 13 :: 10 :: ((post.map statusLineBytes).flatten ++ [])))).length + 1 := by
      simp only [List.length_append, List.length_cons]
      omega
    exact parseValue_mono hle _ _ _ (by simp) (hflat 0 Value.Nil [])
  simp only [decode_stream, h4]
  simp

/-- C10 witness: in `*3\r\n+OK\r\n-ERR\r\n+hi\r\n` the error element —
preceded by an `Ok` element — does not stop the loop: the `+hi` element is
still parsed and the whole value (20 bytes) is consumed before the first
error is reported; with two error elements (`*5`, errors at positions 2 and
4) the first one in stream order is the result; the same holds with the
error inside a nested array, and `resultExtendList` keeps the first error. -/
theorem C10_witness :
    parseValue 2 (.Value .Nil)
        [42, 51, 13, 10, 43, 79, 75, 13, 10, 45, 69, 82, 82, 13, 10, 43, 104, 105, 13, 10] =
      POut.ok (RRes.er (RedisError.server .ResponseError descServer none))
        (.Value (.Bulk [Value.Okay, Value.Status [104, 105]])) [] ∧
    parseValue 2 (.Value .Nil)
        [42, 53, 13, 10, 43, 79, 75, 13, 10, 45, 69, 82, 82, 13, 10, 43, 109, 109, 13, 10,
          45, 88, 13, 10, 43, 104, 105, 13, 10] =
      POut.ok (RRes.er (RedisError.server .ResponseError descServer none))
        (.Value (.Bulk [Value.Okay, Value.Status [109, 109], Value.Status [104, 105]])) [] ∧
    parseValue 3 (.Value .Nil)
        [42, 51, 13, 10, 43, 79, 75, 13, 10, 42, 50, 13, 10, 45, 69, 82, 82, 13, 10,
          43, 120, 121, 13, 10, 43, 104, 105, 13, 10] =
      POut.ok (RRes.er (RedisError.server .ResponseError descServer none))
        (.Value (.Bulk [Value.Okay, Value.Bulk [Value.Status [120, 121]],
          Value.Status [104, 105]])) [] ∧
    resultExtendList [RRes.ok, RRes.ok, RRes.er RedisError.unexpectedEof, RRes.ok] =
      RRes.er RedisError.unexpectedEof ∧
    decode_stream
        [42, 51, 13, 10, 43, 79, 75, 13, 10, 45, 69, 82, 82, 13, 10, 43, 104, 105, 13, 10]
        false =
      DecodeOut.fail (RedisError.server .ResponseError descServer none) 20 := by
  have h := @C10_first_error_consumes_all [51] [51] [50] [50] [53] [53] 3 2 5 rfl rfl (by decide) rfl rfl (by decide)
    rfl rfl (by decide)
    [([79, 75], [79, 75])] [([109, 109], [109, 109])] [([104, 105], [104, 105])]
    [] [([120, 121], [120, 121])]
    (by decide) (by decide) (by decide) (by decide) (by decide)
    [69, 82, 82] [69, 82, 82] [88] [88] rfl rfl rfl rfl
    (by decide) (by decide) (by decide)
  exact ⟨h.1 0 Value.Nil [], h.2.2.1 0 Value.Nil [], h.2.2.2.1 0 Value.Nil [],
    h.2.1 2 RedisError.unexpectedEof [RRes.ok], h.2.2.2.2⟩
/-- C6: when the available bytes form a strict prefix of a value's encoding,
the parse suspends and the streaming decoder reports need-more-input with
zero bytes of the buffer consumed; a later call given the same pending bytes
with the newly received bytes appended produces the same value and the same
consumed count as an uninterrupted decode of the whole encoding. -/
theorem C6_need_more_zero_consumed {c q r : List Nat} {v : Value} (henc : Encodes c v)
    (hsplit : c = q ++ r) (hr : r ≠ []) :
    decode_stream q false = .noValue 0 ∧
    ∀ t, decode_stream (q ++ (r ++ t)) false = .got v c.length ∧
         decode_stream (c ++ t) false = .got v c.length := by
  subst hsplit
  have hm := parse_prefix_more henc rfl hr
  constructor
  · simp only [decode_stream, hm]
    rfl
  · intro t
    have hp := encodes_parse_at henc t (((q ++ r) ++ t).length + 1) (by simp)
    have hgot : decode_stream ((q ++ r) ++ t) false = .got v (q ++ r).length := by
      simp only [decode_stream, hp, ValueParser.take]
      congr 1
      simp
      omega
    refine ⟨?_, hgot⟩
    rw [List.append_assoc] at hgot
    exact hgot

/-- C6 witness: the prefix `+O` of `+OK\r\n` suspends with zero bytes
consumed, and feeding the remaining bytes appended — or the whole encoding at
once — produces `Okay` with all 5 bytes consumed. -/
theorem C6_witness :
    decode_stream [43, 79] false = .noValue 0 ∧
    decode_stream ([43, 79] ++ ([75, 13, 10] ++ [])) false = .got Value.Okay 5 ∧
    decode_stream ([43, 79, 75, 13, 10] ++ []) false = .got Value.Okay 5 := by
  have h := @C6_need_more_zero_consumed [43, 79, 75, 13, 10] [43, 79] [75, 13, 10]
    Value.Okay (by rfl) rfl (by decide)
  exact ⟨h.1, (h.2 []).1, (h.2 []).2⟩

/-- C4 counterexample: the claim says every driver reports clean end-of-source
distinctly from truncation, with the truncation error distinct from ordinary
protocol errors; but the synchronous driver maps a cleanly exhausted empty
source to the same unexpected-end-of-input failure as a truncated value
(there is no clean end-of-stream report), and the streaming driver wraps its
truncation error with kind `ResponseError` — the same kind as ordinary
protocol errors such as the integer-garbage error. -/
theorem C4_counterexample :
    parse_value [] = .fail RedisError.unexpectedEof ∧
    parse_value [36, 53, 13, 10, 104, 101, 108] = .fail RedisError.unexpectedEof ∧
    decode_stream [36, 53, 13, 10, 104, 101, 108] true =
      .fail (.parseError .endOfInput) 0 ∧
    (RedisError.parseError .endOfInput).kind = ErrorKind.ResponseError ∧
    (RedisError.parseError .garbage).kind = ErrorKind.ResponseError :=
  ⟨rfl, rfl, rfl, rfl, rfl⟩

/-- C4 amended: reaching end-of-source while a value is only partially
received is an error in both drivers, never a clean report and never a crash
— the streaming driver reports a parse error of kind `ResponseError` (the
same kind as ordinary protocol errors) with zero bytes consumed and the
synchronous driver reports the unexpected-end-of-input io failure; at
end-of-source with no pending bytes the streaming driver reports clean
end-of-stream, while the synchronous driver reports the same
unexpected-end-of-input failure as for truncation. -/
theorem C4_eof_behavior {c q r : List Nat} {v : Value} (henc : Encodes c v)
    (hsplit : c = q ++ r) (hq : q ≠ []) (hr : r ≠ []) :
    decode_stream q true = .fail (.parseError .endOfInput) 0 ∧
    (RedisError.parseError .endOfInput).kind = ErrorKind.ResponseError ∧
    parse_value q = .fail RedisError.unexpectedEof ∧
    decode_stream [] true = .noValue 0 ∧
    parse_value [] = .fail RedisError.unexpectedEof := by
  have hm := parse_prefix_more henc hsplit hr
  refine ⟨?_, rfl, ?_, rfl, rfl⟩
  · simp only [decode_stream, hm]
    simp [hq]
  · simp only [parse_value, hm]

/-- C4 witness: `$5\r\nhel` (a truncated `$5\r\nhello\r\n`) followed by
end-of-source yields the truncation error in both drivers. -/
theorem C4_witness :
    decode_stream [36, 53, 13, 10, 104, 101, 108] true =
      .fail (.parseError .endOfInput) 0 ∧
    parse_value [36, 53, 13, 10, 104, 101, 108] = .fail RedisError.unexpectedEof := by
  have h := @C4_eof_behavior [36, 53, 13, 10, 104, 101, 108, 108, 111, 13, 10]
    [36, 53, 13, 10, 104, 101, 108] [108, 111, 13, 10] (Value.Data [104, 101, 108, 108, 111])
    (by rfl) rfl (by decide) (by decide)
  exact ⟨h.1, h.2.2.1⟩

theorem flatten_singleton_chunks : ∀ s : List Nat, (s.map (fun b => [b])).flatten = s := by
  intro s
  induction s with
  | nil => rfl
  | cons b bs ih => simp [ih]

/-- C1: fragmentation invariance — for a byte stream that encodes the value
sequence `vs`, feeding the whole stream at once and reading values until
need-more-input yields exactly `vs` in order with nothing pending, and
feeding it split into any chunks — in particular at every single-byte
boundary — through the resumable decoder yields exactly the same `vs` in
order with nothing pending. -/
theorem C1_fragmentation_invariance {s : List Nat} {vs : List Value}
    (h : GoodStream s vs) :
    decodeAllA s = (vs, []) ∧
    (∀ chunks : List (List Nat), chunks.flatten = s → feedChunks chunks [] = (vs, [])) ∧
    feedChunks (s.map (fun b => [b])) [] = (vs, []) := by
  have hall : ∀ chunks : List (List Nat), chunks.flatten = s →
      feedChunks chunks [] = (vs, []) := by
    intro chunks hfl
    refine feedChunks_good chunks [] ?_ rfl
    rw [List.nil_append, hfl]
    exact h
  exact ⟨goodStream_decodeAllA h, hall, hall _ (flatten_singleton_chunks s)⟩

/-- C1 witness: the stream `+OK\r\n:1000\r\n` decodes to `[Okay, Int 1000]`
both fed at once and fed one byte at a time. -/
theorem C1_witness :
    decodeAllA [43, 79, 75, 13, 10, 58, 49, 48, 48, 48, 13, 10] =
      ([Value.Okay, Value.Int 1000], []) ∧
    feedChunks ([43, 79, 75, 13, 10, 58, 49, 48, 48, 48, 13, 10].map (fun b => [b])) [] =
      ([Value.Okay, Value.Int 1000], []) := by
  have hg : GoodStream ([43, 79, 75, 13, 10] ++ ([58, 49, 48, 48, 48, 13, 10] ++ []))
      [Value.Okay, Value.Int 1000] :=
    GoodStream.cons (by rfl) (GoodStream.cons (by rfl) GoodStream.nil)
  have h := C1_fragmentation_invariance hg
  exact ⟨h.1, h.2.2⟩

set_option maxRecDepth 100000

/-- C8: no caller observes a partially-filled array — whenever the grammar
completes a top-level parse from the leaf builder state, the resulting
builder is again a leaf holding a fully resolved value (the frame stack is
empty, so no frames leak and the decoder is ready for the next value); in
particular an array nest of depth 32 fed one byte at a time decodes to the
fully resolved nested value with nothing pending. -/
theorem C8_no_partial_arrays :
    (∀ fuel (w : Value) input r st1 rest,
      parseValue fuel (.Value w) input = POut.ok r st1 rest → ∃ v1, st1 = .Value v1) ∧
    feedChunks ((nest 32).map (fun b => [b])) [] = ([nestVal 32], []) ∧
    decodeAllA (nest 32) = ([nestVal 32], []) := by
  have henc : Encodes (nest 32) (nestVal 32) := by rfl
  have hgood : GoodStream (nest 32) [nestVal 32] := by
    have hco := GoodStream.cons henc GoodStream.nil
    rwa [List.append_nil] at hco
  refine ⟨?_, ?_, ?_⟩
  · intro fuel w input r st1 rest hok
    have hs := (parseValue_shape fuel).1 (.Value w) input r st1 rest True.intro hok
    cases st1 with
    | Value v1 => exact ⟨v1, rfl⟩
    | Bulk fs =>
      exfalso
      have h1 : fs ≠ [] := hs.1
      have h2 : fs.length = 0 := hs.2
      exact h1 (List.length_eq_zero.mp h2)
  · refine feedChunks_good _ [] ?_ rfl
    rw [List.nil_append, flatten_singleton_chunks]
    exact hgood
  · exact goodStream_decodeAllA hgood

/-- C8 witness: completing the array `*0\r\n` from the leaf state leaves the
builder as a leaf value — the frame stack opened for the array is empty
again. -/
theorem C8_witness : ∃ v1, ValueParser.Value (Value.Bulk []) = ValueParser.Value v1 :=
  C8_no_partial_arrays.1 2 Value.Nil [42, 48, 13, 10] RRes.ok
    (ValueParser.Value (Value.Bulk [])) [] (by rfl)
